import Mathlib

/-!
# Verification of the giskardpy kinematic-tree core (`urdf_object.py`, `utils.py`)

Shallow embedding of the kinematic-tree model of
`src/giskardpy/urdf_object.py` together with the geometry helpers of
`src/giskardpy/utils.py`, and proofs settling the frozen claims about the
natural-language specification.

Modelling conventions:

* Python floats are modelled as rationals `ℚ`; the float constant `math.pi`
  is threaded as an explicit parameter `pi : ℚ`, so every theorem holds for
  any value of that constant (in particular for the float approximation the
  code uses).
* `urdf_parser_py` objects (`up.Robot`, `up.Link`, `up.Joint`, …) are
  modelled by plain records holding exactly the attributes the embedded
  code reads.  The derived dictionaries (`link_map`, `joint_map`,
  `parent_map`, `child_map`) of `up.Robot` are insertion-order dictionaries
  built by successive assignment, so a lookup returns the *last* aggregate
  with the queried key; they are embedded as functions that scan the
  aggregate lists from the end.
* `URDFObject.reinitialize` serialises the robot with `to_xml_string` and
  re-parses the result.  Serialisation writes the aggregate link and joint
  lists in order and re-parsing rebuilds exactly those lists (the spec's
  round-trip contract, §8), so on this abstract state `reinitialize` is the
  identity; the derived maps are recomputed on demand anyway.
* A Python method that can raise is embedded as a function returning the
  state of the object at method exit *plus* an optional error
  (`attach_urdf_object`), or an `Option`/`Except` result when the object is
  not mutated before the raise.
-/

/-- `<limit>` element of a joint (`urdf_parser_py` `JointLimit`).  Only the
position bounds `lower`/`upper` are read by the embedded code; the
`effort`/`velocity` attributes are never touched by it and are omitted. -/
structure JointLimit where
  lower : ℚ
  upper : ℚ
deriving DecidableEq, Repr

/-- `<safety_controller>` element (`urdf_parser_py` `SafetyController`).
The parser materialises the URDF defaults, so a present element always
carries both soft bounds. -/
structure SafetyController where
  soft_lower_limit : ℚ
  soft_upper_limit : ℚ
deriving DecidableEq, Repr

/-- Collision/visual geometry of a parsed URDF link: the closed variant set
`up.Box | up.Sphere | up.Cylinder | up.Mesh`.  A parsed `up.Box` carries a
three-component `size` vector. -/
inductive Geometry where
  | box (size : ℚ × ℚ × ℚ)
  | sphere (radius : ℚ)
  | cylinder (radius : ℚ) (length : ℚ)
  | mesh (filename : String)
deriving DecidableEq, Repr

/-- Joint origin: translation plus the roll/pitch/yaw triple
(`up.Pose(xyz, rpy)`). -/
structure Origin where
  xyz : ℚ × ℚ × ℚ
  rpy : ℚ × ℚ × ℚ
deriving DecidableEq, Repr

/-- `geometry_msgs/Pose`: a position and a quaternion. -/
structure Pose where
  px : ℚ
  py : ℚ
  pz : ℚ
  qx : ℚ
  qy : ℚ
  qz : ℚ
  qw : ℚ
deriving DecidableEq, Repr

/-- A parsed URDF link (`up.Link`): the attributes read by the embedded
code. -/
structure ULink where
  name : String
  collision : Option Geometry := none
deriving DecidableEq, Repr

/-- A parsed URDF joint (`up.Joint`): the attributes read by the embedded
code.  `joint_type` is the `type` string (`"fixed"`, `"revolute"`,
`"continuous"`, `"prismatic"`); `mimic` holds the mimicked joint's name
when a `<mimic>` element is present. -/
structure UJoint where
  name : String
  joint_type : String
  parent : String
  child : String
  origin : Origin := ⟨(0, 0, 0), (0, 0, 0)⟩
  limit : Option JointLimit := none
  safety_controller : Option SafetyController := none
  mimic : Option String := none
deriving DecidableEq, Repr

/-- The state of an `up.Robot` (and hence of a `URDFObject`): the robot
name and the aggregate link and joint lists, in aggregate order. -/
structure Robot where
  name : String
  links : List ULink
  joints : List UJoint
deriving DecidableEq, Repr

namespace Robot

/-- `link_map[n]`: dictionary built by successive `link_map[link.name] = link`
assignments, so the last aggregate with the name wins. -/
def link_map (r : Robot) (n : String) : Option ULink :=
  r.links.reverse.find? (fun l => l.name == n)

/-- `joint_map[n]`: last aggregate joint with the queried name. -/
def joint_map (r : Robot) (n : String) : Option UJoint :=
  r.joints.reverse.find? (fun j => j.name == n)

/-- `parent_map[c] = (joint.name, joint.parent)` for the last joint whose
child is `c`. -/
def parent_map (r : Robot) (c : String) : Option (String × String) :=
  (r.joints.reverse.find? (fun j => j.child == c)).map (fun j => (j.name, j.parent))

/-- `child_map[p]`: the `(joint.name, joint.child)` pairs of the joints
whose parent is `p`, in aggregate order (empty list when `p` has no
children, matching the `in child_map` guard in the source). -/
def child_map (r : Robot) (p : String) : List (String × String) :=
  (r.joints.filter (fun j => j.parent == p)).map (fun j => (j.name, j.child))

/-- `get_link_names` returns `link_map.keys()`: the link names without
duplicates. -/
def get_link_names (r : Robot) : List String :=
  (r.links.map ULink.name).dedup

/-- `get_joint_names` returns `joint_map.keys()`: the joint names without
duplicates. -/
def get_joint_names (r : Robot) : List String :=
  (r.joints.map UJoint.name).dedup

/-- `up.Robot.get_root`: the unique link that is not a key of `parent_map`;
the source `assert`s uniqueness and existence, embedded as `none`. -/
def get_root (r : Robot) : Option String :=
  match (r.links.map ULink.name).dedup.filter (fun n => (r.parent_map n).isNone) with
  | [n] => some n
  | _ => none

/-- `URDFObject.from_parts(robot_name, links, joints)`: builds a fresh
`up.Robot`, adds the links and joints in order and round-trips it through
`to_xml_string`, yielding exactly this aggregate state. -/
def from_parts (robot_name : String) (links : List ULink) (joints : List UJoint) : Robot :=
  ⟨robot_name, links, joints⟩

/-- `URDFObject.reinitialize`: serialise with `to_xml_string` and re-parse.
On the abstract aggregate state this round trip is the identity (spec §8
round-trip contract); the derived maps are recomputed on demand. -/
def reinitialize (r : Robot) : Robot := r

end Robot

/-! ## Joint limit resolution (`get_joint_limits`, lines 155-171)

The source tries
`max(joint.safety_controller.soft_lower_limit, joint.limit.lower)` /
`min(..soft_upper_limit.., joint.limit.upper)`; an `AttributeError` is
raised exactly when `safety_controller` or `limit` is `None` (attribute
access on `None`), in which case it falls back to
`(joint.limit.lower, joint.limit.upper)`, and to `(None, None)` when
`limit` is `None` as well. -/

def get_joint_limits (j : UJoint) : Option ℚ × Option ℚ :=
  match j.safety_controller, j.limit with
  | some sc, some lim =>
      (some (max sc.soft_lower_limit lim.lower), some (min sc.soft_upper_limit lim.upper))
  | _, _ =>
      match j.limit with
      | some lim => (some lim.lower, some lim.upper)
      | none => (none, none)

/-- `MOVABLE_JOINT_TYPES` membership and absent mimic
(`is_joint_controllable`). -/
def is_joint_controllable (j : UJoint) : Prop :=
  j.joint_type ∈ (["revolute", "continuous", "prismatic"] : List String) ∧ j.mimic = none

/-- C4: For every joint that has hard position limits, the effective-limit
query returns `(max(hard.lower, soft.lower), min(hard.upper, soft.upper))`
when soft (safety-controller) limits are present, and returns the hard
limits unchanged when soft limits are absent. -/
theorem C4_effective_limits (j : UJoint) (lim : JointLimit) (hlim : j.limit = some lim) :
    (∀ sc : SafetyController, j.safety_controller = some sc →
      get_joint_limits j =
        (some (max sc.soft_lower_limit lim.lower), some (min sc.soft_upper_limit lim.upper))) ∧
    (j.safety_controller = none →
      get_joint_limits j = (some lim.lower, some lim.upper)) := by
  constructor
  · intro sc hsc
    simp [get_joint_limits, hsc, hlim]
  · intro hsc
    simp [get_joint_limits, hsc, hlim]

/-- Witness for C4, on the spec's own example: hard limits `(-1, 1)` and
soft limits `(-1/2, 4/5)` resolve to `(-1/2, 4/5)`. -/
theorem C4_effective_limits_witness :
    get_joint_limits
        { name := "j1", joint_type := "revolute", parent := "base_link", child := "arm_link",
          limit := some ⟨-1, 1⟩, safety_controller := some ⟨-1/2, 4/5⟩ } =
      (some (-1/2), some (4/5)) := by
  have h := (C4_effective_limits
      { name := "j1", joint_type := "revolute", parent := "base_link", child := "arm_link",
        limit := some ⟨-1, 1⟩, safety_controller := some ⟨-1/2, 4/5⟩ } ⟨-1, 1⟩ rfl).1
      ⟨-1/2, 4/5⟩ rfl
  rw [h]
  norm_num

/-- A concrete continuous joint with declared position limits `(-1, 1)`. -/
def contJoint : UJoint :=
  { name := "wheel_joint", joint_type := "continuous", parent := "base_link",
    child := "wheel_link", limit := some ⟨-1, 1⟩ }

/-- Counterexample to C5: `get_joint_limits` does not treat continuous
joints as unbounded — a continuous joint with declared position limits
`(-1, 1)` resolves to exactly those bounds instead of to no bound. -/
theorem C5_continuous_counterexample :
    contJoint.joint_type = "continuous" ∧
      get_joint_limits contJoint = (some (-1), some 1) ∧
      get_joint_limits contJoint ≠ (none, none) := by
  refine ⟨rfl, rfl, ?_⟩
  decide

/-- C5 (amended): the effective-limit resolution never inspects the joint
type; a continuous joint resolves exactly like a joint of any other type
with the same limit and safety-controller entries.  In particular a
continuous joint with declared position limits obtains those limits (per
C4), and only a joint with no `<limit>` entry yields no bound. -/
theorem C5_continuous_amended (j : UJoint) (hj : j.joint_type = "continuous") :
    get_joint_limits j = get_joint_limits { j with joint_type := "revolute" } := by
  cases j
  simp [get_joint_limits]

/-- Witness for the amended C5 at the concrete continuous joint. -/
theorem C5_continuous_amended_witness :
    get_joint_limits contJoint =
      get_joint_limits { contJoint with joint_type := "revolute" } :=
  C5_continuous_amended contJoint rfl

/-- C6: for a fixed joint (which carries no `<limit>` element — no position
limits exist for fixed joints) the query returns `(None, None)`, the
source's `NotApplicable` signal ("or None if not applicable" per its
docstring), never a limit value. -/
theorem C6_fixed_not_applicable (j : UJoint) (hty : j.joint_type = "fixed")
    (hlim : j.limit = none) :
    get_joint_limits j = (none, none) := by
  cases hsc : j.safety_controller <;> simp [get_joint_limits, hsc, hlim]

/-- Witness for C6 at a concrete fixed joint. -/
theorem C6_fixed_not_applicable_witness :
    get_joint_limits
        { name := "weld", joint_type := "fixed", parent := "base_link", child := "box" } =
      (none, none) :=
  C6_fixed_not_applicable
    { name := "weld", joint_type := "fixed", parent := "base_link", child := "box" } rfl rfl

/-! ## Geometry classifier (`utils.py` lines 109-160, `has_link_collision`
lines 273-292)

The float constant `math.pi` is the parameter `pi : ℚ`; the theorems hold
for every value of it. -/

def sphere_volume (pi radius : ℚ) : ℚ := (4 / 3) * pi * radius ^ 3

def cube_volume (length width height : ℚ) : ℚ := length * width * height

def cube_surface (length width height : ℚ) : ℚ :=
  2 * (length * width + length * height + width * height)

def cylinder_volume (pi r h : ℚ) : ℚ := pi * r ^ 2 * h

def cylinder_surface (pi r h : ℚ) : ℚ := 2 * pi * r * (h + r)

/-- Default `volume_threshold` of `has_link_collision` (`1e-6` m³). -/
def volume_threshold_default : ℚ := 1 / 1000000

/-- Default `surface_threshold` of `has_link_collision` (`1e-4` m²). -/
def surface_threshold_default : ℚ := 1 / 10000

/-- `has_link_collision(link, volume_threshold, surface_threshold)`:
`False` when the link has no collision element; otherwise the source's
`isinstance`-guarded and/or chain over the closed variant set, which
evaluates per variant to the branch below (the `isinstance` guards are
mutually exclusive, so exactly one disjunct of the chain can fire). -/
def has_link_collision (pi : ℚ) (link : ULink)
    (volume_threshold surface_threshold : ℚ) : Prop :=
  match link.collision with
  | none => False
  | some (.box (l, w, h)) =>
      cube_volume l w h > volume_threshold ∨ cube_surface l w h > surface_threshold
  | some (.sphere r) => sphere_volume pi r > volume_threshold
  | some (.cylinder r h) =>
      cylinder_volume pi r h > volume_threshold ∨ cylinder_surface pi r h > surface_threshold
  | some (.mesh _) => True

/-- Collision relevance as the specification words it (§4.4), with the
arithmetic written out: a link is collision-relevant iff it has collision
geometry and that geometry is a Mesh, or a Box with `l·w·h > vt` or
`2(lw+lh+wh) > st`, or a Sphere with `(4/3)πr³ > vt`, or a Cylinder with
`πr²h > vt` or `2πr(h+r) > st`. -/
def collision_relevant_spec (pi : ℚ) (link : ULink) (vt st : ℚ) : Prop :=
  ∃ g, link.collision = some g ∧
    (match g with
     | .mesh _ => True
     | .box (l, w, h) => l * w * h > vt ∨ 2 * (l * w + l * h + w * h) > st
     | .sphere r => 4 / 3 * pi * r ^ 3 > vt
     | .cylinder r h => pi * r ^ 2 * h > vt ∨ 2 * pi * r * (h + r) > st)

/-- C7: under the default thresholds, `has_link_collision` agrees with the
spec's collision-relevance predicate on every link (and in fact under
every choice of thresholds and of the `pi` constant), and a link without
collision geometry is never collision-relevant. -/
theorem C7_collision_relevance :
    (∀ (pi : ℚ) (link : ULink),
      has_link_collision pi link volume_threshold_default surface_threshold_default ↔
        collision_relevant_spec pi link volume_threshold_default surface_threshold_default) ∧
    (∀ (pi vt st : ℚ) (link : ULink), link.collision = none →
      ¬ has_link_collision pi link vt st) := by
  have key : ∀ (pi vt st : ℚ) (link : ULink),
      has_link_collision pi link vt st ↔ collision_relevant_spec pi link vt st := by
    intro pi vt st link
    unfold has_link_collision collision_relevant_spec
    cases hc : link.collision with
    | none => simp
    | some g =>
      cases g with
      | box s =>
        obtain ⟨l, w, h⟩ := s
        simp [cube_volume, cube_surface]
      | sphere r => simp [sphere_volume]
      | cylinder r h => simp [cylinder_volume, cylinder_surface]
      | mesh f => simp
  exact ⟨fun pi link => key pi _ _ link,
    fun pi vt st link hnone => by
      have := (key pi vt st link).mp
      intro hcol
      rcases this hcol with ⟨g, hg, _⟩
      rw [hnone] at hg
      exact Option.noConfusion hg⟩

/-! ## `from_world_body` (lines 70-99)

`WorldBody` and `SolidPrimitive` are external message types; only the
distinctness of their integer constants matters to the control flow.  The
embedded values mirror `shape_msgs/SolidPrimitive` (`BOX=1`, `SPHERE=2`,
`CYLINDER=3`, `CONE=4`) and the `giskard_msgs/WorldBody` body-type
constants. -/

def WorldBody.URDF_BODY : Nat := 0

def WorldBody.PRIMITIVE_BODY : Nat := 1

def WorldBody.MESH_BODY : Nat := 2

def SolidPrimitive.BOX : Nat := 1

def SolidPrimitive.SPHERE : Nat := 2

def SolidPrimitive.CYLINDER : Nat := 3

def SolidPrimitive.CONE : Nat := 4

/-- `shape_msgs/SolidPrimitive`: a shape kind plus its dimension list. -/
structure SolidPrimitiveMsg where
  type : Nat
  dimensions : List ℚ
deriving DecidableEq, Repr

/-- `giskard_msgs/WorldBody`: the fields `from_world_body` reads. -/
structure WorldBodyMsg where
  type : Nat
  name : String
  shape : SolidPrimitiveMsg
  mesh : String
  urdf : String
deriving DecidableEq, Repr

/-- The geometry object built by `from_world_body`.  `up.Box` receives the
whole dimension list; `up.Sphere` receives `dimensions[0]`; `up.Cylinder`
is called with the whole dimension list as its single positional argument
(which lands in its `radius` slot, `length` keeping its `0.0` default). -/
inductive WBGeometry where
  | box (size : List ℚ)
  | sphere (radius : ℚ)
  | cylinder (radius : List ℚ) (length : ℚ)
  | mesh (filename : String)
deriving DecidableEq, Repr

/-- The `up.Link` built by `from_world_body`: same geometry object used for
the visual (with a green material, not modelled) and the collision. -/
structure WBLink where
  name : String
  visual : WBGeometry
  collision : WBGeometry
deriving DecidableEq, Repr

/-- Exceptions `from_world_body` can raise. -/
inductive WorldBodyError where
  | coneNotSupported
  | shapeNotSupported (t : Nat)
  | bodyTypeNotSupported (t : Nat)
  | indexError
deriving DecidableEq, Repr

/-- Result of `from_world_body`: either `URDFObject.from_parts(name, links,
joints)` or, for a `URDF_BODY`, `cls(world_body.urdf)`. -/
inductive WorldBodyResult where
  | parts (robot_name : String) (links : List WBLink) (joints : List UJoint)
  | fromUrdf (urdf : String)
deriving DecidableEq, Repr

/-- The `if world_body.shape.type == ... elif ...` chain of `from_world_body`
that assigns the local variable `geometry` (lines 79-90). -/
def select_geometry (wb : WorldBodyMsg) : Except WorldBodyError WBGeometry :=
  if wb.shape.type = SolidPrimitive.BOX then
    .ok (.box wb.shape.dimensions)
  else if wb.shape.type = SolidPrimitive.SPHERE then
    match wb.shape.dimensions with
    | d0 :: _ => .ok (.sphere d0)
    | [] => .error .indexError
  else if wb.shape.type = SolidPrimitive.CYLINDER then
    .ok (.cylinder wb.shape.dimensions 0)
  else if wb.shape.type = SolidPrimitive.CONE then
    .error .coneNotSupported
  else if wb.type = WorldBody.MESH_BODY then
    .ok (.mesh wb.mesh)
  else
    .error (.shapeNotSupported wb.shape.type)

def from_world_body (wb : WorldBodyMsg) : Except WorldBodyError WorldBodyResult :=
  if wb.type = WorldBody.PRIMITIVE_BODY ∨ wb.type = WorldBody.MESH_BODY then
    match select_geometry wb with
    | .error e => .error e
    | .ok geometry =>
        .ok (.parts wb.name [{ name := wb.name, visual := geometry, collision := geometry }] [])
  else if wb.type = WorldBody.URDF_BODY then
    .ok (.fromUrdf wb.urdf)
  else
    .error (.bodyTypeNotSupported wb.type)

/-- The mesh arm of the `geometry` assignment is reached only when
`shape.type` matches none of the four primitive constants. -/
theorem select_geometry_mesh_only_default (wb : WorldBodyMsg) (f : String)
    (h : select_geometry wb = .ok (.mesh f)) :
    wb.shape.type ≠ SolidPrimitive.BOX ∧ wb.shape.type ≠ SolidPrimitive.SPHERE ∧
      wb.shape.type ≠ SolidPrimitive.CYLINDER ∧ wb.shape.type ≠ SolidPrimitive.CONE := by
  by_cases h1 : wb.shape.type = SolidPrimitive.BOX
  · rw [select_geometry, if_pos h1] at h
    exact absurd h (by simp)
  by_cases h2 : wb.shape.type = SolidPrimitive.SPHERE
  · rw [select_geometry, if_neg h1, if_pos h2] at h
    cases hdim : wb.shape.dimensions with
    | nil => rw [hdim] at h; exact absurd h (by simp)
    | cons d0 rest => rw [hdim] at h; exact absurd h (by simp)
  by_cases h3 : wb.shape.type = SolidPrimitive.CYLINDER
  · rw [select_geometry, if_neg h1, if_neg h2, if_pos h3] at h
    exact absurd h (by simp)
  by_cases h4 : wb.shape.type = SolidPrimitive.CONE
  · rw [select_geometry, if_neg h1, if_neg h2, if_neg h3, if_pos h4] at h
    exact absurd h (by simp)
  exact ⟨h1, h2, h3, h4⟩

/-- C10: for a `MESH_BODY` descriptor whose `shape.type` equals the `BOX`,
`SPHERE` or `CYLINDER` constant, `from_world_body` builds the corresponding
primitive geometry from `shape.dimensions` (never a mesh referencing
`wb.mesh`), and a mesh geometry is built only when `shape.type` matches none
of the primitive constants. -/
theorem C10_mesh_body_shape_dispatch (wb : WorldBodyMsg) (hty : wb.type = WorldBody.MESH_BODY) :
    (wb.shape.type = SolidPrimitive.BOX →
      from_world_body wb = .ok (.parts wb.name
        [{ name := wb.name, visual := .box wb.shape.dimensions,
           collision := .box wb.shape.dimensions }] [])) ∧
    (∀ d0 rest, wb.shape.type = SolidPrimitive.SPHERE → wb.shape.dimensions = d0 :: rest →
      from_world_body wb = .ok (.parts wb.name
        [{ name := wb.name, visual := .sphere d0, collision := .sphere d0 }] [])) ∧
    (wb.shape.type = SolidPrimitive.CYLINDER →
      from_world_body wb = .ok (.parts wb.name
        [{ name := wb.name, visual := .cylinder wb.shape.dimensions 0,
           collision := .cylinder wb.shape.dimensions 0 }] [])) ∧
    (∀ name links joints, from_world_body wb = .ok (.parts name links joints) →
      (∃ l ∈ links, ∃ f, l.collision = WBGeometry.mesh f) →
      wb.shape.type ≠ SolidPrimitive.BOX ∧ wb.shape.type ≠ SolidPrimitive.SPHERE ∧
        wb.shape.type ≠ SolidPrimitive.CYLINDER ∧ wb.shape.type ≠ SolidPrimitive.CONE) := by
  have hcond : wb.type = WorldBody.PRIMITIVE_BODY ∨ wb.type = WorldBody.MESH_BODY :=
    Or.inr hty
  refine ⟨?_, ?_, ?_, ?_⟩
  · intro hbox
    have hsel : select_geometry wb = .ok (.box wb.shape.dimensions) := by
      rw [select_geometry, if_pos hbox]
    simp [from_world_body, hcond, hsel]
  · intro d0 rest hsph hdim
    have hnbox : wb.shape.type ≠ SolidPrimitive.BOX := by
      rw [hsph]; decide
    have hsel : select_geometry wb = .ok (.sphere d0) := by
      rw [select_geometry, if_neg hnbox, if_pos hsph, hdim]
    simp [from_world_body, hcond, hsel]
  · intro hcyl
    have hnbox : wb.shape.type ≠ SolidPrimitive.BOX := by rw [hcyl]; decide
    have hnsph : wb.shape.type ≠ SolidPrimitive.SPHERE := by rw [hcyl]; decide
    have hsel : select_geometry wb = .ok (.cylinder wb.shape.dimensions 0) := by
      rw [select_geometry, if_neg hnbox, if_neg hnsph, if_pos hcyl]
    simp [from_world_body, hcond, hsel]
  · intro nm links joints hok hmesh
    rw [from_world_body, if_pos hcond] at hok
    cases hsel : select_geometry wb with
    | error e => rw [hsel] at hok; exact absurd hok (by simp)
    | ok g =>
      rw [hsel] at hok
      have hlinks : links = [{ name := wb.name, visual := g, collision := g }] := by
        cases hok
        rfl
      rcases hmesh with ⟨l, hl, f, hf⟩
      rw [hlinks] at hl
      simp only [List.mem_singleton] at hl
      rw [hl] at hf
      simp only at hf
      rw [hf] at hsel
      exact select_geometry_mesh_only_default wb f hsel

/-- Witness for C10: a concrete mesh-body descriptor whose `shape.type`
happens to equal the `BOX` constant yields a box built from the dimension
list, not a mesh referencing `"pkg://thing.stl"`. -/
theorem C10_mesh_body_shape_dispatch_witness :
    from_world_body
        { type := WorldBody.MESH_BODY, name := "thing",
          shape := { type := SolidPrimitive.BOX, dimensions := [1, 2, 3] },
          mesh := "thing.stl", urdf := "" } =
      .ok (.parts "thing"
        [{ name := "thing", visual := .box [1, 2, 3], collision := .box [1, 2, 3] }] []) :=
  (C10_mesh_body_shape_dispatch
    { type := WorldBody.MESH_BODY, name := "thing",
      shape := { type := SolidPrimitive.BOX, dimensions := [1, 2, 3] },
      mesh := "thing.stl", urdf := "" } rfl).1 rfl

/-! ## `attach_urdf_object` (lines 300-339)

The method raises `DuplicateNameException` or `KeyError` *before* the first
mutation of `self._urdf_robot` (the three precondition checks precede the
`up.Joint` construction, which in turn precedes the `add_joint`/`add_link`
calls), so it is embedded as a function returning the state of `self` at
method exit together with the optional raised error.  The
`tf.transformations.euler_from_quaternion` conversion is pure arithmetic on
the quaternion; it is threaded as an arbitrary parameter
`efq : ℚ × ℚ × ℚ × ℚ → ℚ × ℚ × ℚ`, so all theorems hold for the actual
conversion as well. -/

/-- Exceptions observable from `attach_urdf_object` and `detach_sub_tree`. -/
inductive UpdateError where
  | duplicateName
  | keyError
  | assertionError
deriving DecidableEq, Repr

/-- `robot_name_to_root_joint`: `u'{}'.format(name)`, the identity. -/
def robot_name_to_root_joint (n : String) : String := n

/-- The fixed weld joint constructed by `attach_urdf_object` (lines
322-332): named after the attached object's robot name, welding
`parent_link` to the attached object's root link with the pose's
translation and converted orientation. -/
def weld_joint (efq : ℚ × ℚ × ℚ × ℚ → ℚ × ℚ × ℚ)
    (other_name parent_link other_root : String) (pose : Pose) : UJoint :=
  { name := robot_name_to_root_joint other_name,
    joint_type := "fixed",
    parent := parent_link,
    child := other_root,
    origin := ⟨(pose.px, pose.py, pose.pz), efq (pose.qx, pose.qy, pose.qz, pose.qw)⟩ }

def attach_urdf_object (efq : ℚ × ℚ × ℚ × ℚ → ℚ × ℚ × ℚ)
    (self other : Robot) (parent_link : String) (pose : Pose) :
    Robot × Option UpdateError :=
  if other.name ∈ self.get_link_names then (self, some .duplicateName)
  else if other.name ∈ self.get_joint_names then (self, some .duplicateName)
  else if parent_link ∉ self.get_link_names then (self, some .keyError)
  else
    match other.get_root with
    | none => (self, some .assertionError)
    | some other_root =>
      let joint : UJoint := weld_joint efq other.name parent_link other_root pose
      let s1 : Robot := { self with joints := self.joints ++ [joint] }
      let s2 : Robot := { s1 with joints := s1.joints ++ other.joints }
      let s3 : Robot := { s2 with links := s2.links ++ other.links }
      (s3.reinitialize, none)

/-- C1: an `attach_urdf_object` call that raises (any of the precondition
failures — duplicate name, unknown parent link — as well as the root
assertion) leaves the target tree exactly as it was: all checks precede the
first mutation of `self`. -/
theorem C1_attach_atomic (efq : ℚ × ℚ × ℚ × ℚ → ℚ × ℚ × ℚ)
    (self other : Robot) (parent_link : String) (pose : Pose) (e : UpdateError)
    (herr : (attach_urdf_object efq self other parent_link pose).2 = some e) :
    (attach_urdf_object efq self other parent_link pose).1 = self := by
  unfold attach_urdf_object at herr ⊢
  by_cases h1 : other.name ∈ self.get_link_names
  · rw [if_pos h1]
  rw [if_neg h1] at herr ⊢
  by_cases h2 : other.name ∈ self.get_joint_names
  · rw [if_pos h2]
  rw [if_neg h2] at herr ⊢
  by_cases h3 : parent_link ∉ self.get_link_names
  · rw [if_pos h3]
  rw [if_neg h3] at herr ⊢
  cases hroot : other.get_root with
  | none => rfl
  | some other_root =>
    rw [hroot] at herr
    exact absurd herr (by simp)

/-- A one-link target tree used by the concrete attach examples. -/
def baseRobot : Robot :=
  { name := "robot", links := [{ name := "base_link" }], joints := [] }

/-- An attachable tree whose robot name collides with a link of
`baseRobot`. -/
def clashingBody : Robot :=
  { name := "base_link", links := [{ name := "base_link" }], joints := [] }

/-- The identity-free stand-in for `euler_from_quaternion` used by the
concrete examples (the claims never inspect the produced angles). -/
def efq0 : ℚ × ℚ × ℚ × ℚ → ℚ × ℚ × ℚ := fun _ => (0, 0, 0)

/-- The zero pose used by the concrete examples. -/
def pose0 : Pose := ⟨0, 0, 0, 0, 0, 0, 1⟩

/-- Witness for C1: attaching a body whose name duplicates an existing link
fails with `DuplicateNameException` and leaves the tree untouched. -/
theorem C1_attach_atomic_witness :
    (attach_urdf_object efq0 baseRobot clashingBody "base_link" pose0).2 =
        some UpdateError.duplicateName ∧
      (attach_urdf_object efq0 baseRobot clashingBody "base_link" pose0).1 = baseRobot :=
  ⟨by decide, C1_attach_atomic efq0 baseRobot clashingBody "base_link" pose0
    UpdateError.duplicateName (by decide)⟩

/-- A tree to attach whose *interior* link name `"shared_link"` collides
with a link of the target tree below, while its robot name `"obj"` is
fresh. -/
def interiorClashBody : Robot :=
  { name := "obj",
    links := [{ name := "obj" }, { name := "shared_link" }],
    joints := [{ name := "obj_joint", joint_type := "fixed",
                 parent := "obj", child := "shared_link" }] }

/-- A target tree containing the link name `"shared_link"`. -/
def sharedLinkRobot : Robot :=
  { name := "robot",
    links := [{ name := "base_link" }, { name := "shared_link" }],
    joints := [{ name := "base_to_shared", joint_type := "fixed",
                 parent := "base_link", child := "shared_link" }] }

/-- Counterexample to C2: the interior link name `"shared_link"` of the
attached tree collides with a link of the target tree, yet
`attach_urdf_object` raises no `DuplicateNameException` — it succeeds and
duplicates the name. -/
theorem C2_interior_collision_counterexample :
    "shared_link" ∈ sharedLinkRobot.get_link_names ∧
      "shared_link" ∈ interiorClashBody.get_link_names ∧
      "shared_link" ≠ interiorClashBody.name ∧
      (attach_urdf_object efq0 sharedLinkRobot interiorClashBody "base_link" pose0).2 =
        none := by
  refine ⟨by decide, by decide, by decide, by decide⟩

/-- C2 (amended): `attach_urdf_object` raises `DuplicateNameException` iff
the attached tree's *robot name* (`urdf_object.get_name()`) collides with an
existing link or joint name of the target tree; name collisions of the
other tree's interior links and joints are not checked and do not make the
attach fail. -/
theorem C2_duplicate_name_amended (efq : ℚ × ℚ × ℚ × ℚ → ℚ × ℚ × ℚ)
    (self other : Robot) (parent_link : String) (pose : Pose) :
    (attach_urdf_object efq self other parent_link pose).2 = some .duplicateName ↔
      (other.name ∈ self.get_link_names ∨ other.name ∈ self.get_joint_names) := by
  unfold attach_urdf_object
  by_cases h1 : other.name ∈ self.get_link_names
  · simp [h1]
  rw [if_neg h1]
  by_cases h2 : other.name ∈ self.get_joint_names
  · simp [h1, h2]
  rw [if_neg h2]
  by_cases h3 : parent_link ∉ self.get_link_names
  · simp [h1, h2, h3]
  rw [if_neg h3]
  cases hroot : other.get_root with
  | none => simp [h1, h2]
  | some other_root => simp [h1, h2]

/-! ## Sub-tree extraction (`get_sub_tree_at_joint`, lines 246-262)

The source iterates over the growing worklist `joints`, so the loop
terminates exactly when every enqueued joint has been processed.  The
embedding makes the worklist explicit and adds a fuel argument: `none`
models a `KeyError` (a failed `joint_map`/`link_map` lookup) *or* a
diverging loop (which on a valid tree never happens — the fuel
`joints.length + 1` is proven sufficient below). -/

namespace Robot

/-- The `tree_joints.append(self.get_urdf_joint(j))` lookups for the
discovered `(j, l)` pairs of `child_map[child_link]`. -/
def lookup_joints (r : Robot) : List (String × String) → Option (List UJoint)
  | [] => some []
  | p :: ps =>
    match r.joint_map p.1 with
    | none => none
    | some j =>
      match r.lookup_joints ps with
      | none => none
      | some js => some (j :: js)

/-- One-pass embedding of the `for joint in joints:` loop: processes the
worklist head, appending its child joints to the worklist, collecting the
discovered joints and the child link, and recursing on the rest. -/
def sub_tree_loop (r : Robot) : Nat → List String → Option (List ULink × List UJoint)
  | _, [] => some ([], [])
  | 0, _ :: _ => none
  | fuel + 1, jn :: rest =>
    (r.joint_map jn).bind fun jt =>
    (r.link_map jt.child).bind fun child_link_obj =>
    (r.lookup_joints (r.child_map jt.child)).bind fun discovered =>
    (r.sub_tree_loop fuel (rest ++ (r.child_map jt.child).map Prod.fst)).map
      fun p => (child_link_obj :: p.1, discovered ++ p.2)

/-- `get_sub_tree_at_joint(joint_name)`: run the traversal from
`[joint_name]` and package the collected links and joints with
`from_parts(joint_name, tree_links, tree_joints)`.  The fuel
`joints.length + 1` is sufficient on every valid tree (each joint is
enqueued at most once); exhaustion models divergence. -/
def get_sub_tree_at_joint (r : Robot) (joint_name : String) : Option Robot :=
  (r.sub_tree_loop (r.joints.length + 1) [joint_name]).map
    (fun p => from_parts joint_name p.1 p.2)

end Robot

/-- Downward reachability along child-joint edges: the links reachable from
`c` by repeatedly following a joint whose parent is already reached. -/
inductive Reaches (r : Robot) (c : String) : String → Prop where
  | refl : Reaches r c c
  | step {l : String} {j : UJoint} (h : Reaches r c l) (hj : j ∈ r.joints)
      (hp : j.parent = l) : Reaches r c j.child

theorem Reaches.trans {r : Robot} {a b c : String}
    (hab : Reaches r a b) (hbc : Reaches r b c) : Reaches r a c := by
  induction hbc with
  | refl => exact hab
  | step h hj hp ih => exact ih.step hj hp

/-- First-step decomposition: a reachable target is the start itself or is
reachable from the child of a joint hanging off the start. -/
theorem Reaches.head_cases {r : Robot} {c l : String} (h : Reaches r c l) :
    l = c ∨ ∃ j ∈ r.joints, j.parent = c ∧ Reaches r j.child l := by
  induction h with
  | refl => exact Or.inl rfl
  | step h hj hp ih =>
    rename_i l' j
    rcases ih with rfl | ⟨j0, hj0, hp0, hr0⟩
    · exact Or.inr ⟨j, hj, hp, Reaches.refl⟩
    · exact Or.inr ⟨j0, hj0, hp0, hr0.step hj hp⟩

/-- Last-step inversion: a reachable target other than the start is the
child of a reachable joint. -/
theorem Reaches.tail_cases {r : Robot} {c l : String} (h : Reaches r c l) :
    l = c ∨ ∃ j ∈ r.joints, j.child = l ∧ Reaches r c j.parent := by
  cases h with
  | refl => exact Or.inl rfl
  | step h hj hp => exact Or.inr ⟨_, hj, rfl, hp ▸ h⟩

namespace Robot

theorem joint_map_name {r : Robot} {n : String} {j : UJoint}
    (h : r.joint_map n = some j) : j.name = n := by
  have := List.find?_some h
  simpa using this

theorem joint_map_mem {r : Robot} {n : String} {j : UJoint}
    (h : r.joint_map n = some j) : j ∈ r.joints := by
  have := List.mem_of_find?_eq_some h
  simpa using this

theorem joint_map_isSome {r : Robot} {n : String}
    (h : n ∈ r.joints.map UJoint.name) : (r.joint_map n).isSome := by
  rcases List.mem_map.mp h with ⟨j, hj, rfl⟩
  exact List.find?_isSome.mpr ⟨j, List.mem_reverse.mpr hj, by simp⟩

/-- With pairwise-distinct joint names, `joint_map` is exactly "the joint of
that name". -/
theorem joint_map_eq_iff {r : Robot} (hnd : (r.joints.map UJoint.name).Nodup)
    {n : String} {j : UJoint} :
    r.joint_map n = some j ↔ j ∈ r.joints ∧ j.name = n := by
  constructor
  · intro h
    exact ⟨joint_map_mem h, joint_map_name h⟩
  · rintro ⟨hmem, rfl⟩
    have hs : (r.joint_map j.name).isSome :=
      joint_map_isSome (List.mem_map_of_mem UJoint.name hmem)
    rcases Option.isSome_iff_exists.mp hs with ⟨j', hj'⟩
    have hname : j'.name = j.name := joint_map_name hj'
    have hmem' : j' ∈ r.joints := joint_map_mem hj'
    have : j' = j := List.inj_on_of_nodup_map hnd hmem' hmem hname
    rw [hj', this]

theorem link_map_name {r : Robot} {n : String} {l : ULink}
    (h : r.link_map n = some l) : l.name = n := by
  have := List.find?_some h
  simpa using this

theorem link_map_mem {r : Robot} {n : String} {l : ULink}
    (h : r.link_map n = some l) : l ∈ r.links := by
  have := List.mem_of_find?_eq_some h
  simpa using this

theorem link_map_isSome {r : Robot} {n : String}
    (h : n ∈ r.links.map ULink.name) : (r.link_map n).isSome := by
  rcases List.mem_map.mp h with ⟨l, hl, rfl⟩
  exact List.find?_isSome.mpr ⟨l, List.mem_reverse.mpr hl, by simp⟩

theorem mem_child_map {r : Robot} {p : String} {a : String × String} :
    a ∈ r.child_map p ↔ ∃ j ∈ r.joints, j.parent = p ∧ a = (j.name, j.child) := by
  unfold child_map
  simp only [List.mem_map, List.mem_filter]
  constructor
  · rintro ⟨j, ⟨hj, hp⟩, rfl⟩
    exact ⟨j, hj, by simpa using hp, rfl⟩
  · rintro ⟨j, hj, hp, rfl⟩
    exact ⟨j, ⟨hj, by simpa using hp⟩, rfl⟩

theorem parent_map_eq_none_iff {r : Robot} {c : String} :
    r.parent_map c = none ↔ ∀ j ∈ r.joints, j.child ≠ c := by
  unfold parent_map
  rw [Option.map_eq_none', List.find?_eq_none]
  constructor
  · intro h j hj
    simpa using h j (List.mem_reverse.mpr hj)
  · intro h j hj
    simpa using h j (List.mem_reverse.mp hj)

theorem lookup_joints_isSome {r : Robot} :
    ∀ {cs : List (String × String)},
      (∀ p ∈ cs, (r.joint_map p.1).isSome) → (r.lookup_joints cs).isSome
  | [], _ => by simp [lookup_joints]
  | p :: ps, h => by
    rw [lookup_joints]
    rcases Option.isSome_iff_exists.mp (h p (by simp)) with ⟨j, hj⟩
    rw [hj]
    have ih : (r.lookup_joints ps).isSome :=
      lookup_joints_isSome (fun q hq => h q (by simp [hq]))
    rcases Option.isSome_iff_exists.mp ih with ⟨js, hjs⟩
    rw [hjs]
    rfl

theorem lookup_joints_mem {r : Robot} :
    ∀ {cs : List (String × String)} {js : List UJoint},
      r.lookup_joints cs = some js →
      ∀ j, j ∈ js ↔ ∃ p ∈ cs, r.joint_map p.1 = some j
  | [], js, h, j => by
    rw [lookup_joints] at h
    cases h
    simp
  | p :: ps, js, h, j => by
    rw [lookup_joints] at h
    cases hp : r.joint_map p.1 with
    | none => rw [hp] at h; exact absurd h (by simp)
    | some j0 =>
      rw [hp] at h
      cases hps : r.lookup_joints ps with
      | none => rw [hps] at h; exact absurd h (by simp)
      | some js0 =>
        rw [hps] at h
        cases h
        have ih := lookup_joints_mem hps j
        constructor
        · intro hj
          rcases List.mem_cons.mp hj with rfl | hj0
          · exact ⟨p, by simp, hp⟩
          · rcases ih.mp hj0 with ⟨q, hq, hq'⟩
            exact ⟨q, by simp [hq], hq'⟩
        · rintro ⟨q, hq, hq'⟩
          rcases List.mem_cons.mp hq with rfl | hq0
          · rw [hp] at hq'
            cases hq'
            exact List.mem_cons_self _ _
          · exact List.mem_cons_of_mem _ (ih.mpr ⟨q, hq0, hq'⟩)

end Robot

/-- The spec §3 structural invariants of a kinematic tree, in the form the
embedded graph algorithms rely on: pairwise-distinct link names and
pairwise-distinct joint names (invariant 1; the embedded algorithms never
compare a link name with a joint name, so the two namespaces are kept
separate); referential integrity of every joint's parent/child
(invariant 4); at most one parent joint per link (the "every other link has
exactly one parent joint" half of invariant 2); and acyclicity
(invariant 3), witnessed by a depth function that increases by one along
every joint. -/
structure ValidTree (r : Robot) : Prop where
  link_nodup : (r.links.map ULink.name).Nodup
  joint_nodup : (r.joints.map UJoint.name).Nodup
  parent_mem : ∀ j ∈ r.joints, j.parent ∈ r.links.map ULink.name
  child_mem : ∀ j ∈ r.joints, j.child ∈ r.links.map ULink.name
  child_inj : ∀ j1 ∈ r.joints, ∀ j2 ∈ r.joints, j1.child = j2.child → j1 = j2
  acyclic : ∃ d : String → ℤ, ∀ j ∈ r.joints, d j.child = d j.parent + 1

namespace ValidTree

theorem name_inj {r : Robot} (v : ValidTree r) {j j' : UJoint}
    (h : j ∈ r.joints) (h' : j' ∈ r.joints) (hn : j.name = j'.name) : j = j' :=
  List.inj_on_of_nodup_map v.joint_nodup h h' hn

end ValidTree

/-- A joint hanging off `c` makes its child reachable from `c`. -/
theorem reaches_child {r : Robot} {c : String} {j : UJoint}
    (hj : j ∈ r.joints) (hp : j.parent = c) : Reaches r c j.child :=
  Reaches.refl.step hj hp

theorem reaches_depth_le {r : Robot} {d : String → ℤ}
    (hd : ∀ j ∈ r.joints, d j.child = d j.parent + 1)
    {c l : String} (h : Reaches r c l) : d c ≤ d l := by
  induction h with
  | refl => exact le_refl _
  | step h hj hp ih =>
    have := hd _ hj
    rw [hp] at this
    omega

theorem reaches_depth_lt {r : Robot} {d : String → ℤ}
    (hd : ∀ j ∈ r.joints, d j.child = d j.parent + 1)
    {c l : String} (h : Reaches r c l) (hne : l ≠ c) : d c < d l := by
  cases h with
  | refl => exact absurd rfl hne
  | step h hj hp =>
    have h1 := reaches_depth_le hd h
    have h2 := hd _ hj
    rw [hp] at h2
    omega

/-- The child of a joint hanging off `c` can never reach back to `c`
(acyclicity). -/
theorem not_reaches_back {r : Robot} {d : String → ℤ}
    (hd : ∀ j ∈ r.joints, d j.child = d j.parent + 1)
    {c : String} {j : UJoint} (hj : j ∈ r.joints) (hp : j.parent = c) :
    ¬ Reaches r j.child c := by
  intro h
  have hdc : d j.child = d c + 1 := by
    have := hd _ hj
    rw [hp] at this
    exact this
  by_cases he : c = j.child
  · rw [he] at hdc
    omega
  · have := reaches_depth_lt hd h he
    omega

/-- In a unique-parent forest, two links that both reach a common target
are comparable (one reaches the other). -/
theorem reaches_comparable {r : Robot}
    (hinj : ∀ j1 ∈ r.joints, ∀ j2 ∈ r.joints, j1.child = j2.child → j1 = j2)
    {a l : String} (h1 : Reaches r a l) :
    ∀ {b : String}, Reaches r b l → Reaches r a b ∨ Reaches r b a := by
  induction h1 with
  | refl => exact fun h2 => Or.inr h2
  | step h hj hp ih =>
    rename_i l' j
    intro b h2
    rcases h2.tail_cases with rfl | ⟨j', hj', hc', hr'⟩
    · exact Or.inl (h.step hj hp)
    · have : j' = j := hinj j' hj' j hj hc'
      rw [this] at hr'
      rw [hp] at hr'
      exact ih hr'

/-- The joint names hanging off a given parent link, as produced by
`child_map`, are the names of the joints whose parent is that link. -/
theorem child_map_fst_eq (r : Robot) (p : String) :
    (r.child_map p).map Prod.fst =
      (r.joints.filter (fun j => j.parent == p)).map UJoint.name := by
  unfold Robot.child_map
  rw [List.map_map]
  rfl

theorem child_map_fst_nodup {r : Robot} (v : ValidTree r) (p : String) :
    ((r.child_map p).map Prod.fst).Nodup := by
  rw [child_map_fst_eq]
  exact v.joint_nodup.sublist (List.Sublist.map UJoint.name (List.filter_sublist r.joints))

theorem mem_child_map_fst {r : Robot} {p n : String} :
    n ∈ (r.child_map p).map Prod.fst ↔
      ∃ j0 ∈ r.joints, j0.parent = p ∧ j0.name = n := by
  rw [child_map_fst_eq]
  simp only [List.mem_map, List.mem_filter]
  constructor
  · rintro ⟨j0, ⟨hj0, hp0⟩, rfl⟩
    exact ⟨j0, hj0, by simpa using hp0, rfl⟩
  · rintro ⟨j0, hj0, hp0, rfl⟩
    exact ⟨j0, ⟨hj0, by simpa using hp0⟩, rfl⟩

/-- Soundness of the worklist traversal: every collected link and joint is
reachable from the child link of some worklist joint. -/
theorem sub_tree_loop_sound {r : Robot} (hnd : (r.joints.map UJoint.name).Nodup) :
    ∀ (fuel : Nat) (work : List String) (ls : List ULink) (js : List UJoint),
      r.sub_tree_loop fuel work = some (ls, js) →
      (∀ L ∈ ls, ∃ n ∈ work, ∃ jt, r.joint_map n = some jt ∧ Reaches r jt.child L.name) ∧
      (∀ j ∈ js, j ∈ r.joints ∧
        ∃ n ∈ work, ∃ jt, r.joint_map n = some jt ∧ Reaches r jt.child j.parent) := by
  intro fuel
  induction fuel with
  | zero =>
    intro work ls js h
    cases work with
    | nil =>
      rw [Robot.sub_tree_loop] at h
      cases h
      exact ⟨by simp, by simp⟩
    | cons jn rest => exact absurd h (by rw [Robot.sub_tree_loop]; simp)
  | succ fuel ih =>
    intro work ls js h
    cases work with
    | nil =>
      rw [Robot.sub_tree_loop] at h
      cases h
      exact ⟨by simp, by simp⟩
    | cons jn rest =>
      rw [Robot.sub_tree_loop] at h
      cases hjm : r.joint_map jn with
      | none => rw [hjm] at h; exact absurd h (by simp)
      | some jt =>
      cases hlm : r.link_map jt.child with
      | none => simp [hjm, hlm] at h
      | some child_obj =>
      cases hlk : r.lookup_joints (r.child_map jt.child) with
      | none => simp [hjm, hlm, hlk] at h
      | some discovered =>
      cases hrec : r.sub_tree_loop fuel (rest ++ (r.child_map jt.child).map Prod.fst) with
      | none => simp [hjm, hlm, hlk, hrec] at h
      | some p =>
      obtain ⟨ls', js'⟩ := p
      simp only [hjm, hlm, hlk, hrec, Option.some_bind, Option.map_some', Option.some.injEq,
        Prod.mk.injEq] at h
      obtain ⟨hls, hjs⟩ := h
      subst hls
      subst hjs
      obtain ⟨ihl, ihj⟩ := ih _ _ _ hrec
      have lift : ∀ tgt : String,
          (∃ n ∈ rest ++ (r.child_map jt.child).map Prod.fst,
            ∃ jt', r.joint_map n = some jt' ∧ Reaches r jt'.child tgt) →
          ∃ n ∈ jn :: rest, ∃ jt', r.joint_map n = some jt' ∧ Reaches r jt'.child tgt := by
        rintro tgt ⟨n, hn, jt', hmap', hreach⟩
        rcases List.mem_append.mp hn with hn | hn
        · exact ⟨n, List.mem_cons_of_mem _ hn, jt', hmap', hreach⟩
        · rcases mem_child_map_fst.mp hn with ⟨j0, hj0, hp0, hname0⟩
          have hj'0 : jt' = j0 := by
            have h1 : jt'.name = n := Robot.joint_map_name hmap'
            exact List.inj_on_of_nodup_map hnd (Robot.joint_map_mem hmap') hj0
              (by rw [h1, hname0])
          subst hj'0
          exact ⟨jn, List.mem_cons_self _ _, jt, hjm,
            Reaches.trans (reaches_child hj0 hp0) hreach⟩
      refine ⟨?_, ?_⟩
      · intro L hL
        rcases List.mem_cons.mp hL with rfl | hL'
        · refine ⟨jn, List.mem_cons_self _ _, jt, hjm, ?_⟩
          rw [Robot.link_map_name hlm]
          exact Reaches.refl
        · exact lift _ (ihl L hL')
      · intro j hj
        rcases List.mem_append.mp hj with hj | hj
        · rcases (Robot.lookup_joints_mem hlk j).mp hj with ⟨q, hq, hmapq⟩
          rcases Robot.mem_child_map.mp hq with ⟨j0, hj0, hp0, rfl⟩
          have hjj0 : j = j0 := by
            have h1 : j.name = j0.name := Robot.joint_map_name hmapq
            exact List.inj_on_of_nodup_map hnd (Robot.joint_map_mem hmapq) hj0 h1
          subst hjj0
          exact ⟨hj0, jn, List.mem_cons_self _ _, jt, hjm, by rw [hp0]; exact Reaches.refl⟩
        · obtain ⟨hjmem, hrest⟩ := ihj j hj
          exact ⟨hjmem, lift _ hrest⟩

/-- Completeness of the worklist traversal on a successful run: every link
and joint reachable from the child link of a worklist joint is collected
(the loop only stops once the worklist is exhausted, and processing a joint
enqueues all its child joints). -/
theorem sub_tree_loop_complete {r : Robot} (hnd : (r.joints.map UJoint.name).Nodup) :
    ∀ (fuel : Nat) (work : List String) (ls : List ULink) (js : List UJoint),
      r.sub_tree_loop fuel work = some (ls, js) →
      (∀ (n : String) (jt : UJoint) (L : String), n ∈ work → r.joint_map n = some jt →
        Reaches r jt.child L → ∃ Lk ∈ ls, Lk.name = L) ∧
      (∀ (n : String) (jt : UJoint) (j : UJoint), n ∈ work → r.joint_map n = some jt →
        j ∈ r.joints → Reaches r jt.child j.parent → j ∈ js) := by
  intro fuel
  induction fuel with
  | zero =>
    intro work ls js h
    cases work with
    | nil =>
      refine ⟨?_, ?_⟩ <;> intro n jt _ hn _ <;> exact absurd hn (List.not_mem_nil n)
    | cons jn rest => exact absurd h (by rw [Robot.sub_tree_loop]; simp)
  | succ fuel ih =>
    intro work ls js h
    cases work with
    | nil =>
      refine ⟨?_, ?_⟩ <;> intro n jt _ hn _ <;> exact absurd hn (List.not_mem_nil n)
    | cons jn rest =>
      rw [Robot.sub_tree_loop] at h
      cases hjm : r.joint_map jn with
      | none => rw [hjm] at h; exact absurd h (by simp)
      | some jt0 =>
      cases hlm : r.link_map jt0.child with
      | none => simp [hjm, hlm] at h
      | some child_obj =>
      cases hlk : r.lookup_joints (r.child_map jt0.child) with
      | none => simp [hjm, hlm, hlk] at h
      | some discovered =>
      cases hrec : r.sub_tree_loop fuel (rest ++ (r.child_map jt0.child).map Prod.fst) with
      | none => simp [hjm, hlm, hlk, hrec] at h
      | some p =>
      obtain ⟨ls', js'⟩ := p
      simp only [hjm, hlm, hlk, hrec, Option.some_bind, Option.map_some', Option.some.injEq,
        Prod.mk.injEq] at h
      obtain ⟨hls, hjs⟩ := h
      subst hls
      subst hjs
      obtain ⟨ihl, ihj⟩ := ih _ _ _ hrec
      -- a joint hanging off `jt0.child` is enqueued under its own name
      have enqueued : ∀ j0 : UJoint, j0 ∈ r.joints → j0.parent = jt0.child →
          j0.name ∈ rest ++ (r.child_map jt0.child).map Prod.fst ∧
            r.joint_map j0.name = some j0 := by
        intro j0 hj0 hp0
        refine ⟨List.mem_append.mpr (Or.inr (mem_child_map_fst.mpr ⟨j0, hj0, hp0, rfl⟩)), ?_⟩
        exact (Robot.joint_map_eq_iff hnd).mpr ⟨hj0, rfl⟩
      refine ⟨?_, ?_⟩
      · intro n jt L hn hmap hreach
        rcases List.mem_cons.mp hn with rfl | hn'
        · rw [hmap] at hjm
          cases hjm
          rcases hreach.head_cases with rfl | ⟨j0, hj0, hp0, hr0⟩
          · exact ⟨child_obj, List.mem_cons_self _ _, Robot.link_map_name hlm⟩
          · obtain ⟨hmem, hmap0⟩ := enqueued j0 hj0 hp0
            rcases ihl j0.name j0 L hmem hmap0 hr0 with ⟨Lk, hLk, hLkn⟩
            exact ⟨Lk, List.mem_cons_of_mem _ hLk, hLkn⟩
        · rcases ihl n jt L (List.mem_append.mpr (Or.inl hn')) hmap hreach with ⟨Lk, hLk, hLkn⟩
          exact ⟨Lk, List.mem_cons_of_mem _ hLk, hLkn⟩
      · intro n jt j hn hmap hjmem hreach
        rcases List.mem_cons.mp hn with rfl | hn'
        · rw [hmap] at hjm
          cases hjm
          rcases hreach.head_cases with hpar | ⟨j0, hj0, hp0, hr0⟩
          · refine List.mem_append.mpr (Or.inl ?_)
            refine (Robot.lookup_joints_mem hlk j).mpr ?_
            refine ⟨(j.name, j.child), Robot.mem_child_map.mpr ⟨j, hjmem, hpar, rfl⟩, ?_⟩
            exact (Robot.joint_map_eq_iff hnd).mpr ⟨hjmem, rfl⟩
          · obtain ⟨hmem, hmap0⟩ := enqueued j0 hj0 hp0
            exact List.mem_append.mpr (Or.inr (ihj j0.name j0 j hmem hmap0 hjmem hr0))
        · exact List.mem_append.mpr
            (Or.inr (ihj n jt j (List.mem_append.mpr (Or.inl hn')) hmap hjmem hreach))

/-- Termination of the worklist traversal on a valid tree: the fuel
`work.length + B.card` suffices whenever the worklist holds distinct
existing joints whose sub-trees are pairwise disjoint, avoid the worklist
itself, and whose joints all lie in the budget `B` — each joint is enqueued
at most once, so the loop runs out of work before it runs out of fuel. -/
theorem sub_tree_loop_total {r : Robot} (v : ValidTree r) :
    ∀ (fuel : Nat) (work : List String) (B : Finset String),
      work.Nodup →
      (∀ n ∈ work, n ∈ r.joints.map UJoint.name) →
      (∀ n ∈ work, ∀ jt, r.joint_map n = some jt →
        ∀ j ∈ r.joints, Reaches r jt.child j.parent → j.name ∈ B) →
      (∀ n ∈ work, ∀ m ∈ work, n ≠ m →
        ∀ jtn, r.joint_map n = some jtn → ∀ jtm, r.joint_map m = some jtm →
        ∀ j ∈ r.joints, Reaches r jtn.child j.parent →
        ∀ j' ∈ r.joints, Reaches r jtm.child j'.parent → j.name ≠ j'.name) →
      (∀ n ∈ work, ∀ jt, r.joint_map n = some jt →
        ∀ j ∈ r.joints, Reaches r jt.child j.parent → ∀ m ∈ work, j.name ≠ m) →
      work.length + B.card ≤ fuel →
      (r.sub_tree_loop fuel work).isSome := by
  obtain ⟨d, hd⟩ := v.acyclic
  intro fuel
  induction fuel with
  | zero =>
    intro work B h0 h1 h2 h3 h5 h4
    cases work with
    | nil => simp [Robot.sub_tree_loop]
    | cons jn rest =>
      exfalso
      have hlen : (jn :: rest).length = rest.length + 1 := rfl
      omega
  | succ fuel ih =>
    intro work B h0 h1 h2 h3 h5 h4
    cases work with
    | nil => simp [Robot.sub_tree_loop]
    | cons jn rest =>
      have hjs : (r.joint_map jn).isSome :=
        Robot.joint_map_isSome (h1 jn (List.mem_cons_self _ _))
      rcases Option.isSome_iff_exists.mp hjs with ⟨jt, hjm⟩
      have hjtmem : jt ∈ r.joints := Robot.joint_map_mem hjm
      have hlms : (r.link_map jt.child).isSome :=
        Robot.link_map_isSome (v.child_mem jt hjtmem)
      rcases Option.isSome_iff_exists.mp hlms with ⟨cl, hlm⟩
      have hlks : (r.lookup_joints (r.child_map jt.child)).isSome := by
        apply Robot.lookup_joints_isSome
        intro q hq
        rcases Robot.mem_child_map.mp hq with ⟨j0, hj0, hp0, rfl⟩
        exact Robot.joint_map_isSome (List.mem_map_of_mem UJoint.name hj0)
      rcases Option.isSome_iff_exists.mp hlks with ⟨disc, hlk⟩
      -- the enqueued child joint names
      have hrest_nodup : rest.Nodup := h0.of_cons
      have hjn_notmem : jn ∉ rest := (List.nodup_cons.mp h0).1
      -- F2: resolving an enqueued name yields the joint hanging off jt.child
      have F2 : ∀ n ∈ (r.child_map jt.child).map Prod.fst, ∀ jtc, r.joint_map n = some jtc →
          jtc ∈ r.joints ∧ jtc.parent = jt.child := by
        intro n hn jtc hmap
        rcases mem_child_map_fst.mp hn with ⟨j0, hj0, hp0, rfl⟩
        have : jtc = j0 :=
          v.name_inj (Robot.joint_map_mem hmap) hj0 (Robot.joint_map_name hmap)
        subst this
        exact ⟨hj0, hp0⟩
      -- F4: every joint hanging off jt.child lies in jt's sub-tree
      have F4 : ∀ j0 : UJoint, j0.parent = jt.child → Reaches r jt.child j0.parent := by
        intro j0 hp0
        rw [hp0]
        exact Reaches.refl
      -- F3: a child joint's sub-tree is contained in jt's sub-tree
      have F3 : ∀ jtc : UJoint, jtc ∈ r.joints → jtc.parent = jt.child →
          ∀ tgt, Reaches r jtc.child tgt → Reaches r jt.child tgt := by
        intro jtc hjtc hp0 tgt hr
        exact Reaches.trans (reaches_child hjtc hp0) hr
      -- F5: nothing in a child joint's sub-tree is itself an enqueued child name
      have F5 : ∀ jtc ∈ r.joints, jtc.parent = jt.child →
          ∀ j' ∈ r.joints, Reaches r jtc.child j'.parent →
          j'.name ∉ (r.child_map jt.child).map Prod.fst := by
        intro jtc hjtc hp0 j' hj' hr hmem
        rcases mem_child_map_fst.mp hmem with ⟨j1, hj1, hp1, hname1⟩
        have : j' = j1 := v.name_inj hj' hj1 hname1.symm
        subst this
        rw [hp1] at hr
        exact not_reaches_back hd hjtc hp0 hr
      -- F6: the sub-trees of two distinct child joints are name-disjoint
      have F6 : ∀ jtc1 ∈ r.joints, jtc1.parent = jt.child →
          ∀ jtc2 ∈ r.joints, jtc2.parent = jt.child → jtc1 ≠ jtc2 →
          ∀ j ∈ r.joints, Reaches r jtc1.child j.parent →
          ∀ j' ∈ r.joints, Reaches r jtc2.child j'.parent → j.name ≠ j'.name := by
        intro jtc1 hm1 hp1 jtc2 hm2 hp2 hne j hj hr j' hj' hr' heq
        have : j = j' := v.name_inj hj hj' heq
        subst this
        have hcne : jtc1.child ≠ jtc2.child := by
          intro hc
          exact hne (v.child_inj jtc1 hm1 jtc2 hm2 hc)
        have hdepth1 : d jtc1.child = d jt.child + 1 := by
          have := hd jtc1 hm1
          rw [hp1] at this
          exact this
        have hdepth2 : d jtc2.child = d jt.child + 1 := by
          have := hd jtc2 hm2
          rw [hp2] at this
          exact this
        rcases reaches_comparable v.child_inj hr hr' with hc | hc
        · have := reaches_depth_lt hd hc (Ne.symm hcne)
          omega
        · have := reaches_depth_lt hd hc hcne
          omega
      -- the new worklist and budget
      have csN_nodup : ((r.child_map jt.child).map Prod.fst).Nodup := child_map_fst_nodup v _
      have csN_subB : ∀ n ∈ (r.child_map jt.child).map Prod.fst, n ∈ B := by
        intro n hn
        rcases mem_child_map_fst.mp hn with ⟨j0, hj0, hp0, rfl⟩
        exact h2 jn (List.mem_cons_self _ _) jt hjm j0 hj0 (F4 j0 hp0)
      have csN_disj_rest : ∀ n ∈ rest, n ∉ (r.child_map jt.child).map Prod.fst := by
        intro n hn hmem
        rcases mem_child_map_fst.mp hmem with ⟨j0, hj0, hp0, hname0⟩
        exact h5 jn (List.mem_cons_self _ _) jt hjm j0 hj0 (F4 j0 hp0) n
          (List.mem_cons_of_mem _ hn) hname0
      have o1 : (rest ++ (r.child_map jt.child).map Prod.fst).Nodup :=
        hrest_nodup.append csN_nodup csN_disj_rest
      have o2 : ∀ n ∈ rest ++ (r.child_map jt.child).map Prod.fst,
          n ∈ r.joints.map UJoint.name := by
        intro n hn
        rcases List.mem_append.mp hn with hn | hn
        · exact h1 n (List.mem_cons_of_mem _ hn)
        · rcases mem_child_map_fst.mp hn with ⟨j0, hj0, hp0, rfl⟩
          exact List.mem_map_of_mem UJoint.name hj0
      have o3 : ∀ n ∈ rest ++ (r.child_map jt.child).map Prod.fst,
          ∀ jt', r.joint_map n = some jt' →
          ∀ j ∈ r.joints, Reaches r jt'.child j.parent →
          j.name ∈ B \ ((r.child_map jt.child).map Prod.fst).toFinset := by
        intro n hn jt' hmap j hj hr
        rw [Finset.mem_sdiff]
        rcases List.mem_append.mp hn with hn | hn
        · constructor
          · exact h2 n (List.mem_cons_of_mem _ hn) jt' hmap j hj hr
          · intro hmem
            rw [List.mem_toFinset] at hmem
            rcases mem_child_map_fst.mp hmem with ⟨j1, hj1, hp1, hname1⟩
            have hne : jn ≠ n := fun he => hjn_notmem (he ▸ hn)
            exact h3 jn (List.mem_cons_self _ _) n (List.mem_cons_of_mem _ hn) hne
              jt hjm jt' hmap j1 hj1 (F4 j1 hp1) j hj hr hname1
        · obtain ⟨hjtc, hp0⟩ := F2 n hn jt' hmap
          constructor
          · exact h2 jn (List.mem_cons_self _ _) jt hjm j hj (F3 jt' hjtc hp0 _ hr)
          · rw [List.mem_toFinset]
            exact F5 jt' hjtc hp0 j hj hr
      have o4 : ∀ n ∈ rest ++ (r.child_map jt.child).map Prod.fst,
          ∀ m ∈ rest ++ (r.child_map jt.child).map Prod.fst, n ≠ m →
          ∀ jtn, r.joint_map n = some jtn → ∀ jtm, r.joint_map m = some jtm →
          ∀ j ∈ r.joints, Reaches r jtn.child j.parent →
          ∀ j' ∈ r.joints, Reaches r jtm.child j'.parent → j.name ≠ j'.name := by
        intro n hn m hm hne jtn hmapn jtm hmapm j hj hrj j' hj' hrj'
        rcases List.mem_append.mp hn with hn | hn <;>
          rcases List.mem_append.mp hm with hm | hm
        · exact h3 n (List.mem_cons_of_mem _ hn) m (List.mem_cons_of_mem _ hm) hne
            jtn hmapn jtm hmapm j hj hrj j' hj' hrj'
        · obtain ⟨hjtcm, hp0m⟩ := F2 m hm jtm hmapm
          have hnne : n ≠ jn := fun he => hjn_notmem (he ▸ hn)
          exact h3 n (List.mem_cons_of_mem _ hn) jn (List.mem_cons_self _ _) hnne
            jtn hmapn jt hjm j hj hrj j' hj' (F3 jtm hjtcm hp0m _ hrj')
        · obtain ⟨hjtcn, hp0n⟩ := F2 n hn jtn hmapn
          have hmne : jn ≠ m := fun he => hjn_notmem (he ▸ hm)
          exact h3 jn (List.mem_cons_self _ _) m (List.mem_cons_of_mem _ hm) hmne
            jt hjm jtm hmapm j hj (F3 jtn hjtcn hp0n _ hrj) j' hj' hrj'
        · obtain ⟨hjtcn, hp0n⟩ := F2 n hn jtn hmapn
          obtain ⟨hjtcm, hp0m⟩ := F2 m hm jtm hmapm
          have hjne : jtn ≠ jtm := by
            intro he
            apply hne
            rw [← Robot.joint_map_name hmapn, ← Robot.joint_map_name hmapm, he]
          exact F6 jtn hjtcn hp0n jtm hjtcm hp0m hjne j hj hrj j' hj' hrj'
      have o5 : ∀ n ∈ rest ++ (r.child_map jt.child).map Prod.fst,
          ∀ jt', r.joint_map n = some jt' →
          ∀ j ∈ r.joints, Reaches r jt'.child j.parent →
          ∀ m ∈ rest ++ (r.child_map jt.child).map Prod.fst, j.name ≠ m := by
        intro n hn jt' hmap j hj hr m hm
        rcases List.mem_append.mp hn with hn | hn <;>
          rcases List.mem_append.mp hm with hm | hm
        · exact h5 n (List.mem_cons_of_mem _ hn) jt' hmap j hj hr m
            (List.mem_cons_of_mem _ hm)
        · intro heq
          rcases mem_child_map_fst.mp hm with ⟨j1, hj1, hp1, hname1⟩
          have hnne : n ≠ jn := fun he => hjn_notmem (he ▸ hn)
          exact h3 n (List.mem_cons_of_mem _ hn) jn (List.mem_cons_self _ _) hnne
            jt' hmap jt hjm j hj hr j1 hj1 (F4 j1 hp1) (heq.trans hname1.symm)
        · obtain ⟨hjtc, hp0⟩ := F2 n hn jt' hmap
          exact h5 jn (List.mem_cons_self _ _) jt hjm j hj (F3 jt' hjtc hp0 _ hr) m
            (List.mem_cons_of_mem _ hm)
        · obtain ⟨hjtc, hp0⟩ := F2 n hn jt' hmap
          intro heq
          exact F5 jt' hjtc hp0 j hj hr (heq ▸ hm)
      have o6 : (rest ++ (r.child_map jt.child).map Prod.fst).length +
          (B \ ((r.child_map jt.child).map Prod.fst).toFinset).card ≤ fuel := by
        have hsub : ((r.child_map jt.child).map Prod.fst).toFinset ⊆ B := by
          intro n hn
          exact csN_subB n (List.mem_toFinset.mp hn)
        have hcard : (B \ ((r.child_map jt.child).map Prod.fst).toFinset).card =
            B.card - ((r.child_map jt.child).map Prod.fst).toFinset.card :=
          Finset.card_sdiff hsub
        have htf : ((r.child_map jt.child).map Prod.fst).toFinset.card =
            ((r.child_map jt.child).map Prod.fst).length :=
          List.toFinset_card_of_nodup csN_nodup
        have hle : ((r.child_map jt.child).map Prod.fst).toFinset.card ≤ B.card :=
          Finset.card_le_card hsub
        have hlen1 : (rest ++ (r.child_map jt.child).map Prod.fst).length =
            rest.length + ((r.child_map jt.child).map Prod.fst).length :=
          List.length_append _ _
        have hlen2 : (jn :: rest).length = rest.length + 1 := rfl
        omega
      have := ih (rest ++ (r.child_map jt.child).map Prod.fst)
        (B \ ((r.child_map jt.child).map Prod.fst).toFinset) o1 o2 o3 o4 o5 o6
      rcases Option.isSome_iff_exists.mp this with ⟨p, hp⟩
      rw [Robot.sub_tree_loop]
      simp [hjm, hlm, hlk, hp]

/-- A Boolean filter keeping exactly one element of a duplicate-free list
yields that singleton. -/
theorem filter_eq_singleton_of_uniq {α : Type} {xs : List α} {p : α → Bool} {a : α}
    (hnd : xs.Nodup) (ha : a ∈ xs) (hpa : p a = true)
    (huniq : ∀ x ∈ xs, p x = true → x = a) : xs.filter p = [a] := by
  induction xs with
  | nil => cases ha
  | cons y ys ih =>
    by_cases hya : y = a
    · subst hya
      rw [List.filter_cons_of_pos hpa]
      have hnil : ys.filter p = [] := by
        rw [List.filter_eq_nil_iff]
        intro x hx hpx
        have hxa : x = y := huniq x (List.mem_cons_of_mem _ hx) hpx
        subst hxa
        exact (List.nodup_cons.mp hnd).1 hx
      rw [hnil]
    · have hy : p y = false := by
        cases hpy : p y with
        | false => rfl
        | true => exact absurd (huniq y (List.mem_cons_self _ _) hpy) hya
      rw [List.filter_cons_of_neg (by simp [hy])]
      have ha' : a ∈ ys := by
        rcases List.mem_cons.mp ha with h | h
        · exact absurd h.symm hya
        · exact h
      exact ih (List.nodup_cons.mp hnd).2 ha'
        (fun x hx hpx => huniq x (List.mem_cons_of_mem _ hx) hpx)

/-- C8: on a valid tree, sub-tree extraction at a joint succeeds and returns
a standalone tree (a fresh `from_parts` value, no aliasing to the source)
whose link set is exactly the set of links transitively reachable downward
from the joint's child link, whose joint set is exactly the set of joints
whose parent is such a link, and whose root is the joint's child link.  (In
particular, when the child link has no children the result is that single
link with an empty joint set.) -/
theorem C8_sub_tree_at_joint (r : Robot) (v : ValidTree r) (jn : String) (jt : UJoint)
    (hjm : r.joint_map jn = some jt) :
    ∃ st : Robot, r.get_sub_tree_at_joint jn = some st ∧
      (∀ l : String, l ∈ st.links.map ULink.name ↔ Reaches r jt.child l) ∧
      (∀ j : UJoint, j ∈ st.joints ↔ j ∈ r.joints ∧ Reaches r jt.child j.parent) ∧
      st.get_root = some jt.child := by
  obtain ⟨d, hd⟩ := v.acyclic
  have hjtmem : jt ∈ r.joints := Robot.joint_map_mem hjm
  have hjtname : jt.name = jn := Robot.joint_map_name hjm
  -- the head joint's own sub-tree never reaches back to the head joint's name
  have hself : ∀ j ∈ r.joints, Reaches r jt.child j.parent → j.name ≠ jn := by
    intro j hj hr heq
    have : j = jt := v.name_inj hj hjtmem (heq.trans hjtname.symm)
    subst this
    exact not_reaches_back hd hjtmem rfl hr
  -- termination with the full joint-name budget
  have htotal : (r.sub_tree_loop (r.joints.length + 1) [jn]).isSome := by
    apply sub_tree_loop_total v (r.joints.length + 1) [jn] (r.joints.map UJoint.name).toFinset
    · exact List.nodup_singleton jn
    · intro n hn
      rcases List.mem_singleton.mp hn with rfl
      exact hjtname ▸ List.mem_map_of_mem UJoint.name hjtmem
    · intro n hn jt' hmap j hj hr
      exact List.mem_toFinset.mpr (List.mem_map_of_mem UJoint.name hj)
    · intro n hn m hm hne
      rcases List.mem_singleton.mp hn with rfl
      rcases List.mem_singleton.mp hm with rfl
      exact absurd rfl hne
    · intro n hn jt' hmap j hj hr m hm
      rcases List.mem_singleton.mp hn with rfl
      rcases List.mem_singleton.mp hm with rfl
      rw [hmap] at hjm
      cases hjm
      exact hself j hj hr
    · have : (r.joints.map UJoint.name).toFinset.card ≤ (r.joints.map UJoint.name).length :=
        (r.joints.map UJoint.name).toFinset_card_le
      have hlen : (r.joints.map UJoint.name).length = r.joints.length :=
        List.length_map _ _
      have hlen1 : ([jn] : List String).length = 1 := rfl
      omega
  rcases Option.isSome_iff_exists.mp htotal with ⟨p, hloop⟩
  obtain ⟨ls, js⟩ := p
  obtain ⟨soundl, soundj⟩ := sub_tree_loop_sound v.joint_nodup _ _ _ _ hloop
  obtain ⟨compll, complj⟩ := sub_tree_loop_complete v.joint_nodup _ _ _ _ hloop
  refine ⟨Robot.from_parts jn ls js, ?_, ?_, ?_, ?_⟩
  · unfold Robot.get_sub_tree_at_joint
    rw [hloop]
    rfl
  · intro l
    constructor
    · intro hl
      rcases List.mem_map.mp hl with ⟨Lk, hLk, rfl⟩
      rcases soundl Lk hLk with ⟨n, hn, jt', hmap', hr⟩
      rcases List.mem_singleton.mp hn with rfl
      rw [hmap'] at hjm
      cases hjm
      exact hr
    · intro hr
      rcases compll jn jt l (List.mem_singleton_self jn) hjm hr with ⟨Lk, hLk, hLkn⟩
      exact hLkn ▸ List.mem_map_of_mem ULink.name hLk
  · intro j
    constructor
    · intro hj
      rcases soundj j hj with ⟨hjmem, n, hn, jt', hmap', hr⟩
      rcases List.mem_singleton.mp hn with rfl
      rw [hmap'] at hjm
      cases hjm
      exact ⟨hjmem, hr⟩
    · rintro ⟨hjmem, hr⟩
      exact complj jn jt j (List.mem_singleton_self jn) hjm hjmem hr
  · -- root computation on the extracted sub-tree
    have hliff : ∀ l : String,
        l ∈ (Robot.from_parts jn ls js).links.map ULink.name ↔ Reaches r jt.child l := by
      intro l
      constructor
      · intro hl
        rcases List.mem_map.mp hl with ⟨Lk, hLk, rfl⟩
        rcases soundl Lk hLk with ⟨n, hn, jt', hmap', hr⟩
        rcases List.mem_singleton.mp hn with rfl
        rw [hmap'] at hjm
        cases hjm
        exact hr
      · intro hr
        rcases compll jn jt l (List.mem_singleton_self jn) hjm hr with ⟨Lk, hLk, hLkn⟩
        exact hLkn ▸ List.mem_map_of_mem ULink.name hLk
    have hjiff : ∀ j : UJoint,
        j ∈ (Robot.from_parts jn ls js).joints ↔
          j ∈ r.joints ∧ Reaches r jt.child j.parent := by
      intro j
      constructor
      · intro hj
        rcases soundj j hj with ⟨hjmem, n, hn, jt', hmap', hr⟩
        rcases List.mem_singleton.mp hn with rfl
        rw [hmap'] at hjm
        cases hjm
        exact ⟨hjmem, hr⟩
      · rintro ⟨hjmem, hr⟩
        exact complj jn jt j (List.mem_singleton_self jn) hjm hjmem hr
    have hnoparent : (Robot.from_parts jn ls js).parent_map jt.child = none := by
      rw [Robot.parent_map_eq_none_iff]
      intro j hj heq
      obtain ⟨hjmem, hr⟩ := (hjiff j).mp hj
      have h1 : d j.child = d j.parent + 1 := hd j hjmem
      have h2 : d jt.child ≤ d j.parent := reaches_depth_le hd hr
      rw [heq] at h1
      omega
    have hsomeparent : ∀ l : String, l ∈ ls.map ULink.name → l ≠ jt.child →
        (Robot.from_parts jn ls js).parent_map l ≠ none := by
      intro l hl hne hnone
      have hr : Reaches r jt.child l := (hliff l).mp hl
      rcases hr.tail_cases with rfl | ⟨j, hj, hc, hrp⟩
      · exact hne rfl
      · have : j ∈ (Robot.from_parts jn ls js).joints := (hjiff j).mpr ⟨hj, hrp⟩
        exact (Robot.parent_map_eq_none_iff.mp hnone j this) hc
    have hchild_mem : jt.child ∈ (ls.map ULink.name).dedup :=
      List.mem_dedup.mpr ((hliff jt.child).mpr Reaches.refl)
    unfold Robot.get_root
    have hfilter :
        ((Robot.from_parts jn ls js).links.map ULink.name).dedup.filter
          (fun n => ((Robot.from_parts jn ls js).parent_map n).isNone) = [jt.child] := by
      apply filter_eq_singleton_of_uniq (List.nodup_dedup _) hchild_mem
      · rw [hnoparent]
        rfl
      · intro x hx hpx
        by_contra hne
        have hxl : x ∈ ls.map ULink.name := List.mem_dedup.mp hx
        have := hsomeparent x hxl hne
        rw [Option.isNone_iff_eq_none] at hpx
        exact this hpx
    rw [hfilter]

/-- The spec §8 example joint: `j1` (revolute) connecting `base_link` to
`arm_link`. -/
def armJoint : UJoint :=
  { name := "j1", joint_type := "revolute", parent := "base_link", child := "arm_link" }

/-- The spec §8 example tree with root `base_link`. -/
def armBot : Robot :=
  { name := "simple_bot",
    links := [{ name := "base_link" }, { name := "arm_link" }],
    joints := [armJoint] }

/-- Witness for C8, on the spec's own example: extraction at `j1` yields the
sub-tree rooted at `arm_link`, whose joint set is empty (no link reaches
past `arm_link`). -/
theorem C8_sub_tree_at_joint_witness :
    ∃ st : Robot, armBot.get_sub_tree_at_joint "j1" = some st ∧
      (∀ l : String, l ∈ st.links.map ULink.name ↔ Reaches armBot armJoint.child l) ∧
      (∀ j : UJoint, j ∈ st.joints ↔
        j ∈ armBot.joints ∧ Reaches armBot armJoint.child j.parent) ∧
      st.get_root = some armJoint.child :=
  C8_sub_tree_at_joint armBot
    ⟨by decide, by decide, by decide, by decide, by decide,
      ⟨fun l => if l = "arm_link" then 1 else 0, by decide⟩⟩
    "j1" armJoint (by decide)

/-! ## `detach_sub_tree` (lines 341-347)

The removal loops look every name up in the maps of the robot *as it was
when the method started* (`remove_aggregate` does not refresh the maps;
they are only rebuilt by the final `reinitialize`), and `list.remove`
raises `ValueError` when the object is absent — embedded as `none`. -/

/-- Python `list.remove(elem)`: drop the first occurrence equal to `elem`,
`ValueError` (`none`) when there is none. -/
def py_remove {α : Type} [DecidableEq α] (x : α) : List α → Option (List α)
  | [] => none
  | y :: ys => if y = x then some ys else (py_remove x ys).map (y :: ·)

/-- One removal loop of `detach_sub_tree`: look each name up in the stale
map of the original robot and `remove_aggregate` the found object. -/
def remove_all {α : Type} [DecidableEq α] (lookup : String → Option α) :
    List String → List α → Option (List α)
  | [], xs => some xs
  | n :: ns, xs =>
    (lookup n).bind fun x =>
    (py_remove x xs).bind fun xs2 =>
    remove_all lookup ns xs2

def Robot.detach_sub_tree (r : Robot) (joint_name : String) : Option Robot :=
  (r.get_sub_tree_at_joint joint_name).bind fun sub_tree =>
  (remove_all r.link_map sub_tree.get_link_names r.links).bind fun links2 =>
  (remove_all r.joint_map (joint_name :: sub_tree.get_joint_names) r.joints).bind fun joints2 =>
  some (Robot.reinitialize { r with links := links2, joints := joints2 })

theorem py_remove_eq_erase {α : Type} [DecidableEq α] (x : α) :
    ∀ xs : List α, x ∈ xs → py_remove x xs = some (xs.erase x)
  | [], h => absurd h (List.not_mem_nil x)
  | y :: ys, h => by
    rw [py_remove]
    by_cases hyx : y = x
    · subst hyx
      rw [if_pos rfl, List.erase_cons_head]
    · rw [if_neg hyx]
      have hx : x ∈ ys := by
        rcases List.mem_cons.mp h with he | he
        · exact absurd he.symm hyx
        · exact he
      rw [py_remove_eq_erase x ys hx, List.erase_cons_tail]
      · rfl
      · simp [hyx]

/-- Erasing the unique element with a given name commutes with filtering
that name out. -/
theorem erase_filter_name {α : Type} [DecidableEq α] (nm : α → String)
    (n : String) (ns : List String) :
    ∀ (xs : List α) (x : α), x ∈ xs → nm x = n → (xs.map nm).Nodup →
      (xs.erase x).filter (fun y => !ns.contains (nm y)) =
        xs.filter (fun y => !(n :: ns).contains (nm y))
  | [], x, hx, _, _ => absurd hx (List.not_mem_nil x)
  | z :: zs, x, hx, hname, hnd => by
    by_cases hzx : z = x
    · subst hzx
      rw [List.erase_cons_head]
      have hdrop : (z :: zs).filter (fun y => !(n :: ns).contains (nm y)) =
          zs.filter (fun y => !(n :: ns).contains (nm y)) := by
        rw [List.filter_cons_of_neg]
        simp [hname]
      rw [hdrop]
      apply List.filter_congr
      intro y hy
      have hyne : nm y ≠ n := by
        intro he
        have : nm z ∈ zs.map nm := by
          rw [hname, ← he]
          exact List.mem_map_of_mem nm hy
        exact (List.nodup_cons.mp (by simpa using hnd)).1 this
      simp [hyne]
    · rw [List.erase_cons_tail (by simp [hzx])]
      have hxzs : x ∈ zs := by
        rcases List.mem_cons.mp hx with he | he
        · exact absurd he.symm hzx
        · exact he
      have hzne : nm z ≠ n := by
        intro he
        have hinj : z = x :=
          List.inj_on_of_nodup_map hnd (List.mem_cons_self z zs) hx (by rw [he, hname])
        exact hzx hinj
      have htail := erase_filter_name nm n ns zs x hxzs hname
        (by simpa using (List.nodup_cons.mp (by simpa using hnd)).2)
      by_cases hz : nm z ∈ ns
      · rw [List.filter_cons_of_neg (by simp [hz]),
          List.filter_cons_of_neg (by simp [hz]), htail]
      · rw [List.filter_cons_of_pos (by simp [hz]),
          List.filter_cons_of_pos (by simp [hz, hzne]), htail]

/-- On a list with duplicate-free names, removing a duplicate-free list of
resolvable names deletes exactly the objects with those names. -/
theorem remove_all_eq_filter {α : Type} [DecidableEq α] (nm : α → String)
    (lookup : String → Option α) :
    ∀ (ns : List String) (xs : List α),
      ns.Nodup → (xs.map nm).Nodup →
      (∀ n ∈ ns, ∃ x ∈ xs, lookup n = some x ∧ nm x = n) →
      remove_all lookup ns xs = some (xs.filter (fun x => !ns.contains (nm x)))
  | [], xs, _, _, _ => by
    rw [remove_all]
    simp
  | n :: ns, xs, hnsnd, hxsnd, hres => by
    rcases hres n (List.mem_cons_self n ns) with ⟨x, hxmem, hlook, hname⟩
    have hresolve : ∀ m ∈ ns, ∃ y ∈ xs.erase x, lookup m = some y ∧ nm y = m := by
      intro m hm
      rcases hres m (List.mem_cons_of_mem n hm) with ⟨y, hymem, hylook, hyname⟩
      have hyx : y ≠ x := by
        intro he
        have hmn : m = n := by rw [← hyname, he, hname]
        exact (List.nodup_cons.mp hnsnd).1 (hmn ▸ hm)
      exact ⟨y, (List.mem_erase_of_ne hyx).mpr hymem, hylook, hyname⟩
    have hrec := remove_all_eq_filter nm lookup ns (xs.erase x)
      (List.nodup_cons.mp hnsnd).2
      (hxsnd.sublist (List.Sublist.map nm (xs.erase_sublist x)))
      hresolve
    simp only [remove_all, hlook, Option.some_bind]
    rw [py_remove_eq_erase x xs hxmem]
    simp only [Option.some_bind]
    rw [hrec, erase_filter_name nm n ns xs x hxmem hname hxsnd]

/-- Reachability is monotone in the joint set. -/
theorem Reaches.mono {r1 r2 : Robot} (hsub : ∀ j ∈ r1.joints, j ∈ r2.joints)
    {c t : String} (h : Reaches r1 c t) : Reaches r2 c t := by
  induction h with
  | refl => exact Reaches.refl
  | step h hj hp ih => exact ih.step (hsub _ hj) hp

theorem Robot.get_root_eq {r : Robot} {n : String} (h : r.get_root = some n) :
    (r.links.map ULink.name).dedup.filter (fun m => (r.parent_map m).isNone) = [n] := by
  unfold Robot.get_root at h
  split at h
  · rename_i m heq
    cases h
    exact heq
  · exact absurd h (by simp)

theorem Robot.get_root_mem {r : Robot} {n : String} (h : r.get_root = some n) :
    n ∈ r.links.map ULink.name := by
  have heq := Robot.get_root_eq h
  have hn : n ∈ (r.links.map ULink.name).dedup.filter
      (fun m => (r.parent_map m).isNone) := by
    rw [heq]
    exact List.mem_singleton_self n
  exact List.mem_dedup.mp (List.mem_of_mem_filter hn)

theorem Robot.get_root_no_parent {r : Robot} {n : String} (h : r.get_root = some n) :
    r.parent_map n = none := by
  have heq := Robot.get_root_eq h
  have hn : n ∈ (r.links.map ULink.name).dedup.filter
      (fun m => (r.parent_map m).isNone) := by
    rw [heq]
    exact List.mem_singleton_self n
  have := List.of_mem_filter hn
  exact Option.isNone_iff_eq_none.mp (by simpa using this)

/-- A body whose robot name (`"obj"`) differs from its root link name
(`"obj_root"`). -/
def objBody : Robot :=
  { name := "obj", links := [{ name := "obj_root" }], joints := [] }

/-- Counterexample to C9: the weld joint inserted by a successful attach is
named after the attached tree's *robot name* (`"obj"`), not its root link
name (`"obj_root"`); when the two differ, `detach(attach(tree, other,
parent, pose), other.root_name)` raises a `KeyError` (no joint named
`"obj_root"`) instead of restoring the original link/joint name sets. -/
theorem C9_root_name_counterexample :
    (attach_urdf_object efq0 baseRobot objBody "base_link" pose0).2 = none ∧
      objBody.get_root = some "obj_root" ∧
      Robot.detach_sub_tree
        (attach_urdf_object efq0 baseRobot objBody "base_link" pose0).1 "obj_root" =
        none := by
  decide

/-- C9 (amended): the fixed joint inserted by attach is named after the
attached tree's robot name (`other.get_name()`), not its root link name, so
the inverse holds for *that* name: for every valid target tree and valid,
connected attachee whose link and joint name sets do not collide with the
target's, `detach_sub_tree(attach(tree, other, parent, pose),
other.get_name())` succeeds and restores the original tree exactly — link
and joint lists included, hence in particular the original link/joint name
sets. -/
theorem C9_attach_detach_amended
    (efq : ℚ × ℚ × ℚ × ℚ → ℚ × ℚ × ℚ)
    (self other : Robot) (parent_link : String) (pose : Pose) (oroot : String)
    (vself : ValidTree self) (vother : ValidTree other)
    (hroot : other.get_root = some oroot)
    (hconn : ∀ l ∈ other.links, Reaches other oroot l.name)
    (hparent : parent_link ∈ self.links.map ULink.name)
    (hn1 : other.name ∉ self.links.map ULink.name)
    (hn2 : other.name ∉ self.joints.map UJoint.name)
    (hwn : other.name ∉ other.joints.map UJoint.name)
    (hdisjL : ∀ n ∈ other.links.map ULink.name, n ∉ self.links.map ULink.name)
    (hdisjJ : ∀ n ∈ other.joints.map UJoint.name, n ∉ self.joints.map UJoint.name) :
    (attach_urdf_object efq self other parent_link pose).2 = none ∧
      Robot.detach_sub_tree (attach_urdf_object efq self other parent_link pose).1
        other.name = some self := by
  have hrootL : oroot ∈ other.links.map ULink.name := Robot.get_root_mem hroot
  have e1 : ¬ other.name ∈ self.get_link_names := by
    simpa [Robot.get_link_names, List.mem_dedup] using hn1
  have e2 : ¬ other.name ∈ self.get_joint_names := by
    simpa [Robot.get_joint_names, List.mem_dedup] using hn2
  have e3 : ¬ parent_link ∉ self.get_link_names := by
    simp only [Robot.get_link_names, List.mem_dedup]
    exact fun h => h hparent
  set W : UJoint := weld_joint efq other.name parent_link oroot pose with hWdef
  set C : Robot :=
    ⟨self.name, self.links ++ other.links, (self.joints ++ [W]) ++ other.joints⟩ with hCdef
  have hattach : attach_urdf_object efq self other parent_link pose = (C, none) := by
    rw [attach_urdf_object, if_neg e1, if_neg e2, if_neg e3, hroot]
    rfl
  have hWname : W.name = other.name := rfl
  have hWparent : W.parent = parent_link := rfl
  have hWchild : W.child = oroot := rfl
  have hCjoints : C.joints = (self.joints ++ [W]) ++ other.joints := rfl
  have hClinks : C.links = self.links ++ other.links := rfl
  have hCLnames : C.links.map ULink.name =
      self.links.map ULink.name ++ other.links.map ULink.name := by
    rw [hClinks, List.map_append]
  have hCJnames : C.joints.map UJoint.name =
      (self.joints.map UJoint.name ++ [other.name]) ++ other.joints.map UJoint.name := by
    rw [hCjoints, List.map_append, List.map_append]
    rfl
  have hcls : ∀ j, j ∈ C.joints → j ∈ self.joints ∨ j = W ∨ j ∈ other.joints := by
    intro j hj
    rw [hCjoints] at hj
    rcases List.mem_append.mp hj with hj | hj
    · rcases List.mem_append.mp hj with hj | hj
      · exact Or.inl hj
      · exact Or.inr (Or.inl (List.mem_singleton.mp hj))
    · exact Or.inr (Or.inr hj)
  have hnoroot : ∀ j ∈ other.joints, j.child ≠ oroot := by
    rw [← Robot.parent_map_eq_none_iff]
    exact Robot.get_root_no_parent hroot
  have vC : ValidTree C := by
    refine ⟨?_, ?_, ?_, ?_, ?_, ?_⟩
    · rw [hCLnames]
      refine vself.link_nodup.append vother.link_nodup ?_
      intro a ha hb
      exact hdisjL a hb ha
    · rw [hCJnames]
      refine List.Nodup.append ?_ vother.joint_nodup ?_
      · refine vself.joint_nodup.append (List.nodup_singleton _) ?_
        intro a ha hb
        rw [List.mem_singleton] at hb
        subst hb
        exact hn2 ha
      · intro a ha hb
        rcases List.mem_append.mp ha with ha | ha
        · exact hdisjJ a hb ha
        · rw [List.mem_singleton] at ha
          subst ha
          exact hwn hb
    · intro j hj
      rw [hCLnames]
      rcases hcls j hj with hj' | hj' | hj'
      · exact List.mem_append.mpr (Or.inl (vself.parent_mem j hj'))
      · subst hj'
        exact List.mem_append.mpr (Or.inl hparent)
      · exact List.mem_append.mpr (Or.inr (vother.parent_mem j hj'))
    · intro j hj
      rw [hCLnames]
      rcases hcls j hj with hj' | hj' | hj'
      · exact List.mem_append.mpr (Or.inl (vself.child_mem j hj'))
      · subst hj'
        exact List.mem_append.mpr (Or.inr hrootL)
      · exact List.mem_append.mpr (Or.inr (vother.child_mem j hj'))
    · intro j1 hj1 j2 hj2 hc
      rcases hcls j1 hj1 with hj1' | hj1' | hj1' <;>
        rcases hcls j2 hj2 with hj2' | hj2' | hj2'
      · exact vself.child_inj j1 hj1' j2 hj2' hc
      · exfalso
        subst hj2'
        rw [hWchild] at hc
        exact hdisjL oroot hrootL (hc ▸ vself.child_mem j1 hj1')
      · exfalso
        exact hdisjL j2.child (vother.child_mem j2 hj2') (hc ▸ vself.child_mem j1 hj1')
      · exfalso
        subst hj1'
        rw [hWchild] at hc
        exact hdisjL oroot hrootL (hc ▸ vself.child_mem j2 hj2')
      · rw [hj1', hj2']
      · exfalso
        subst hj1'
        rw [hWchild] at hc
        exact hnoroot j2 hj2' hc.symm
      · exfalso
        exact hdisjL j1.child (vother.child_mem j1 hj1') (hc.symm ▸ vself.child_mem j2 hj2')
      · exfalso
        subst hj2'
        rw [hWchild] at hc
        exact hnoroot j1 hj1' hc
      · exact vother.child_inj j1 hj1' j2 hj2' hc
    · obtain ⟨ds, hds⟩ := vself.acyclic
      obtain ⟨dt, hdt⟩ := vother.acyclic
      refine ⟨fun l => if l ∈ self.links.map ULink.name then ds l
        else (ds parent_link + 1) + (dt l - dt oroot), ?_⟩
      intro j hj
      rcases hcls j hj with hj' | hj' | hj'
      · simp only [if_pos (vself.child_mem j hj'), if_pos (vself.parent_mem j hj')]
        exact hds j hj'
      · subst hj'
        rw [hWchild, hWparent]
        simp only [if_neg (hdisjL oroot hrootL), if_pos hparent]
        omega
      · simp only [if_neg (hdisjL j.child (vother.child_mem j hj')),
          if_neg (hdisjL j.parent (vother.parent_mem j hj'))]
        have := hdt j hj'
        omega
  have hWmem : W ∈ C.joints := by
    rw [hCjoints]
    exact List.mem_append.mpr (Or.inl (List.mem_append.mpr (Or.inr (List.mem_singleton_self W))))
  have hjmW : C.joint_map other.name = some W :=
    (Robot.joint_map_eq_iff vC.joint_nodup).mpr ⟨hWmem, hWname⟩
  obtain ⟨st, hst, stL, stJ, stRoot⟩ := C8_sub_tree_at_joint C vC other.name W hjmW
  rw [hWchild] at stL stJ
  have hsubj : ∀ j ∈ other.joints, j ∈ C.joints := by
    intro j hj
    rw [hCjoints]
    exact List.mem_append.mpr (Or.inr hj)
  have hforward : ∀ t, Reaches C oroot t → t ∈ other.links.map ULink.name := by
    intro t h
    induction h with
    | refl => exact hrootL
    | step h hj hp ih =>
      rename_i l j
      rcases hcls j hj with hj' | hj' | hj'
      · exfalso
        have hmem : j.parent ∈ self.links.map ULink.name := vself.parent_mem j hj'
        rw [hp] at hmem
        exact hdisjL l ih hmem
      · exfalso
        subst hj'
        rw [hWparent] at hp
        rw [← hp] at ih
        exact hdisjL parent_link ih hparent
      · exact vother.child_mem j hj'
  have hback : ∀ l ∈ other.links.map ULink.name, Reaches C oroot l := by
    intro l hl
    rcases List.mem_map.mp hl with ⟨L, hLmem, rfl⟩
    exact Reaches.mono hsubj (hconn L hLmem)
  have stLinks : ∀ l, l ∈ st.links.map ULink.name ↔ l ∈ other.links.map ULink.name := by
    intro l
    rw [stL l]
    exact ⟨fun h => hforward l h, fun h => hback l h⟩
  have stJoints : ∀ j, j ∈ st.joints ↔ j ∈ other.joints := by
    intro j
    rw [stJ j]
    constructor
    · rintro ⟨hjmem, hr⟩
      have hpl : j.parent ∈ other.links.map ULink.name := hforward _ hr
      rcases hcls j hjmem with hj' | hj' | hj'
      · exact absurd (vself.parent_mem j hj') (hdisjL _ hpl)
      · subst hj'
        rw [hWparent] at hpl
        exact absurd hparent (hdisjL _ hpl)
      · exact hj'
    · intro hj
      refine ⟨hsubj j hj, ?_⟩
      exact hback _ (vother.parent_mem j hj)
  have stLN : ∀ n, n ∈ st.get_link_names ↔ n ∈ other.links.map ULink.name := by
    intro n
    rw [Robot.get_link_names, List.mem_dedup]
    exact stLinks n
  have stJN : ∀ n, n ∈ st.get_joint_names ↔ n ∈ other.joints.map UJoint.name := by
    intro n
    rw [Robot.get_joint_names, List.mem_dedup]
    constructor
    · intro h
      rcases List.mem_map.mp h with ⟨j, hjmem, rfl⟩
      exact List.mem_map_of_mem UJoint.name ((stJoints j).mp hjmem)
    · intro h
      rcases List.mem_map.mp h with ⟨j, hjmem, rfl⟩
      exact List.mem_map_of_mem UJoint.name ((stJoints j).mpr hjmem)
  have hlinks2 : remove_all C.link_map st.get_link_names C.links = some self.links := by
    have hres : ∀ n ∈ st.get_link_names,
        ∃ x ∈ C.links, C.link_map n = some x ∧ x.name = n := by
      intro n hn
      have hnC : n ∈ C.links.map ULink.name := by
        rw [hCLnames]
        exact List.mem_append.mpr (Or.inr ((stLN n).mp hn))
      rcases Option.isSome_iff_exists.mp (Robot.link_map_isSome hnC) with ⟨x, hx⟩
      exact ⟨x, Robot.link_map_mem hx, hx, Robot.link_map_name hx⟩
    rw [remove_all_eq_filter ULink.name C.link_map st.get_link_names C.links
      (List.nodup_dedup _) vC.link_nodup hres]
    congr 1
    rw [hClinks, List.filter_append]
    have hselfpart : self.links.filter
        (fun x => !st.get_link_names.contains x.name) = self.links := by
      rw [List.filter_eq_self]
      intro x hx
      have hnot : x.name ∉ st.get_link_names := by
        intro hmem
        exact hdisjL x.name ((stLN x.name).mp hmem) (List.mem_map_of_mem ULink.name hx)
      simp [hnot]
    have hotherpart : other.links.filter
        (fun x => !st.get_link_names.contains x.name) = [] := by
      rw [List.filter_eq_nil_iff]
      intro x hx
      have hmem : x.name ∈ st.get_link_names :=
        (stLN x.name).mpr (List.mem_map_of_mem ULink.name hx)
      simp [hmem]
    rw [hselfpart, hotherpart, List.append_nil]
  have hjoints2 : remove_all C.joint_map (other.name :: st.get_joint_names) C.joints =
      some self.joints := by
    have hnsnd : (other.name :: st.get_joint_names).Nodup := by
      rw [List.nodup_cons]
      refine ⟨?_, List.nodup_dedup _⟩
      intro hmem
      exact hwn ((stJN other.name).mp hmem)
    have hres : ∀ n ∈ other.name :: st.get_joint_names,
        ∃ x ∈ C.joints, C.joint_map n = some x ∧ x.name = n := by
      intro n hn
      rcases List.mem_cons.mp hn with rfl | hn'
      · exact ⟨W, hWmem, hjmW, hWname⟩
      · have hnC : n ∈ C.joints.map UJoint.name := by
          rw [hCJnames]
          exact List.mem_append.mpr (Or.inr ((stJN n).mp hn'))
        rcases Option.isSome_iff_exists.mp (Robot.joint_map_isSome hnC) with ⟨x, hx⟩
        exact ⟨x, Robot.joint_map_mem hx, hx, Robot.joint_map_name hx⟩
    rw [remove_all_eq_filter UJoint.name C.joint_map (other.name :: st.get_joint_names)
      C.joints hnsnd vC.joint_nodup hres]
    congr 1
    rw [hCjoints, List.filter_append, List.filter_append]
    have hselfpart : self.joints.filter
        (fun x => !(other.name :: st.get_joint_names).contains x.name) = self.joints := by
      rw [List.filter_eq_self]
      intro x hx
      have h1 : x.name ≠ other.name := by
        intro he
        exact hn2 (he ▸ List.mem_map_of_mem UJoint.name hx)
      have h2 : x.name ∉ st.get_joint_names := by
        intro hmem
        exact hdisjJ x.name ((stJN x.name).mp hmem) (List.mem_map_of_mem UJoint.name hx)
      simp [h1, h2]
    have hWpart : [W].filter
        (fun x => !(other.name :: st.get_joint_names).contains x.name) = [] := by
      rw [List.filter_eq_nil_iff]
      intro x hx
      rw [List.mem_singleton] at hx
      subst hx
      simp [hWname]
    have hotherpart : other.joints.filter
        (fun x => !(other.name :: st.get_joint_names).contains x.name) = [] := by
      rw [List.filter_eq_nil_iff]
      intro x hx
      have hmem : x.name ∈ st.get_joint_names :=
        (stJN x.name).mpr (List.mem_map_of_mem UJoint.name hx)
      simp [hmem]
    rw [hselfpart, hWpart, hotherpart, List.append_nil, List.append_nil]
  refine ⟨by rw [hattach], ?_⟩
  rw [hattach]
  show Robot.detach_sub_tree C other.name = some self
  rw [Robot.detach_sub_tree, hst]
  simp only [Option.some_bind]
  rw [hlinks2]
  simp only [Option.some_bind]
  rw [hjoints2]
  simp only [Option.some_bind]
  rfl

/-- An attachable single-link body whose robot name equals its root link
name (the shape synthesized by `from_world_body` for primitive bodies). -/
def objBody2 : Robot :=
  { name := "obj", links := [{ name := "obj" }], joints := [] }

/-- Witness for the amended C9: attaching `objBody2` to `baseRobot` at
`base_link` and then detaching the joint named `"obj"` (the attached
body's robot name) succeeds and returns exactly the original robot. -/
theorem C9_attach_detach_amended_witness :
    (attach_urdf_object efq0 baseRobot objBody2 "base_link" pose0).2 = none ∧
      Robot.detach_sub_tree
        (attach_urdf_object efq0 baseRobot objBody2 "base_link" pose0).1 "obj" =
        some baseRobot :=
  C9_attach_detach_amended efq0 baseRobot objBody2 "base_link" pose0 "obj"
    ⟨by decide, by decide, by decide, by decide, by decide, ⟨fun _ => 0, by decide⟩⟩
    ⟨by decide, by decide, by decide, by decide, by decide, ⟨fun _ => 0, by decide⟩⟩
    (by decide)
    (by
      intro l hl
      rcases List.mem_singleton.mp hl with rfl
      exact Reaches.refl)
    (by decide) (by decide) (by decide) (by decide) (by decide) (by decide)
